import Mathlib

/-!
# JetImageProducer: jet image encoding, tensor build, top-N ranking, timing record

A shallow embedding of `Brainwave/plugins/JetImageProducer.cc`.

Conventions of the embedding.

* A `float` or `double` value is a rational number, an infinity or NaN (`Fp`). Zero carries no
  sign: the program can observe the sign of a zero only in a quotient by zero, and that
  infinity takes here the sign of the dividend.
* The result of an arithmetic operation or of a conversion is the exact result passed through
  the rounding of the type it is carried out in (`Arith`). `ieeeArith` is the arithmetic of the
  program: IEEE 754 binary32 for `float` and binary64 for `double`, rounding to nearest with
  ties to even, gradual underflow, overflow to infinity, every operation rounded once to its
  own type. `exactArith` rounds nothing and stands for exact arithmetic.
  An operation on two `float` operands is carried out in `float`, an operation with a `double`
  operand in `double`.
* A comparison with NaN is false. `(int) x` is truncation towards zero and is undefined for
  NaN, for an infinity and outside the range of `int`; the embedding returns `none` there.
* A write outside `image2D[224][224]` is undefined behaviour; the embedding returns `none` there.
* The scores `findTopN` ranks are ordered values and are kept as rational numbers.
* `unsigned` is a natural number below `2 ^ 32`; a cast to `unsigned` reduces modulo `2 ^ 32`.
* `timeSinceEpoch()` reads a clock: the clock is a function from the number of reads made
  so far to the value read, and every read advances that number by one.
-/

namespace JetImageProducer

/-! ## Floating-point values and rounding -/

/-- A binary floating-point format: the number of significand bits and the exponents of the
smallest and of the largest normal numbers. -/
structure Format where
  prec : ℕ
  emin : ℤ
  emax : ℤ

/-- The format of `float`. -/
def binary32 : Format := { prec := 24, emin := -126, emax := 127 }

/-- The format of `double`. -/
def binary64 : Format := { prec := 53, emin := -1022, emax := 1023 }

/-- The value of a `float` or `double`: a finite number, an infinity or NaN. -/
inductive Fp where
  | fin (q : ℚ)
  | posInf
  | negInf
  | nan
  deriving DecidableEq

/-- Rounding to the nearest integer, ties to the even one. -/
def roundHalfEven (x : ℚ) : ℤ :=
  if x - ⌊x⌋ < 1 / 2 then ⌊x⌋
  else if 1 / 2 < x - ⌊x⌋ then ⌊x⌋ + 1
  else if ⌊x⌋ % 2 = 0 then ⌊x⌋ else ⌊x⌋ + 1

/-- The exponent of the spacing of the numbers of a format around `x`: with `2 ^ e ≤ |x| <
2 ^ (e + 1)` it is `e - (prec - 1)`, and `emin - (prec - 1)` in the subnormal range. -/
def quantumExp (f : Format) (x : ℚ) : ℤ :=
  max (Int.log 2 |x|) f.emin - ((f.prec : ℤ) - 1)

/-- The number of the format nearest to `x` (ties to even), the exponent range not bounded
above. -/
def roundQ (f : Format) (x : ℚ) : ℚ :=
  (roundHalfEven (x / (2 : ℚ) ^ quantumExp f x) : ℚ) * (2 : ℚ) ^ quantumExp f x

/-- The largest finite number of a format. -/
def maxFinite (f : Format) : ℚ :=
  (2 - (2 : ℚ) ^ (1 - (f.prec : ℤ))) * (2 : ℚ) ^ f.emax

/-- Rounding of an exact result to a format: to nearest, ties to even, overflow to infinity. -/
def roundTo (f : Format) (x : ℚ) : Fp :=
  if maxFinite f < roundQ f x then Fp.posInf
  else if roundQ f x < -maxFinite f then Fp.negInf
  else Fp.fin (roundQ f x)

/-- The arithmetic the loop runs in: the rounding applied to the exact result of a `float`
operation and to that of a `double` operation. -/
structure Arith where
  toFloat : ℚ → Fp
  toDouble : ℚ → Fp

/-- The arithmetic of the program: binary32 for `float`, binary64 for `double`. -/
def ieeeArith : Arith := { toFloat := roundTo binary32, toDouble := roundTo binary64 }

/-- Exact arithmetic: no operation rounds. -/
def exactArith : Arith := { toFloat := Fp.fin, toDouble := Fp.fin }

/-- Conversion of a value to the type with rounding `rnd` (`float x = <double expression>`). -/
def Fp.cvt (rnd : ℚ → Fp) (x : Fp) : Fp :=
  match x with
  | Fp.fin a => rnd a
  | Fp.posInf => Fp.posInf
  | Fp.negInf => Fp.negInf
  | Fp.nan => Fp.nan

/-- The sum `x + y` in the type with rounding `rnd`. -/
def Fp.add (rnd : ℚ → Fp) (x y : Fp) : Fp :=
  match x, y with
  | Fp.fin a, Fp.fin b => rnd (a + b)
  | Fp.fin _, Fp.posInf => Fp.posInf
  | Fp.fin _, Fp.negInf => Fp.negInf
  | Fp.fin _, Fp.nan => Fp.nan
  | Fp.posInf, Fp.fin _ => Fp.posInf
  | Fp.posInf, Fp.posInf => Fp.posInf
  | Fp.posInf, Fp.negInf => Fp.nan
  | Fp.posInf, Fp.nan => Fp.nan
  | Fp.negInf, Fp.fin _ => Fp.negInf
  | Fp.negInf, Fp.posInf => Fp.nan
  | Fp.negInf, Fp.negInf => Fp.negInf
  | Fp.negInf, Fp.nan => Fp.nan
  | Fp.nan, _ => Fp.nan

/-- The difference `x - y` in the type with rounding `rnd`. -/
def Fp.sub (rnd : ℚ → Fp) (x y : Fp) : Fp :=
  match x, y with
  | Fp.fin a, Fp.fin b => rnd (a - b)
  | Fp.fin _, Fp.posInf => Fp.negInf
  | Fp.fin _, Fp.negInf => Fp.posInf
  | Fp.fin _, Fp.nan => Fp.nan
  | Fp.posInf, Fp.fin _ => Fp.posInf
  | Fp.posInf, Fp.posInf => Fp.nan
  | Fp.posInf, Fp.negInf => Fp.posInf
  | Fp.posInf, Fp.nan => Fp.nan
  | Fp.negInf, Fp.fin _ => Fp.negInf
  | Fp.negInf, Fp.posInf => Fp.negInf
  | Fp.negInf, Fp.negInf => Fp.nan
  | Fp.negInf, Fp.nan => Fp.nan
  | Fp.nan, _ => Fp.nan

/-- The quotient `x / y` in the type with rounding `rnd`; a finite non-zero number over zero
is the infinity with the sign of the number. -/
def Fp.div (rnd : ℚ → Fp) (x y : Fp) : Fp :=
  match x, y with
  | Fp.fin a, Fp.fin b =>
    if b = 0 then (if a = 0 then Fp.nan else if 0 < a then Fp.posInf else Fp.negInf)
    else rnd (a / b)
  | Fp.fin _, Fp.posInf => Fp.fin 0
  | Fp.fin _, Fp.negInf => Fp.fin 0
  | Fp.fin _, Fp.nan => Fp.nan
  | Fp.posInf, Fp.fin b => if 0 ≤ b then Fp.posInf else Fp.negInf
  | Fp.posInf, Fp.posInf => Fp.nan
  | Fp.posInf, Fp.negInf => Fp.nan
  | Fp.posInf, Fp.nan => Fp.nan
  | Fp.negInf, Fp.fin b => if 0 ≤ b then Fp.negInf else Fp.posInf
  | Fp.negInf, Fp.posInf => Fp.nan
  | Fp.negInf, Fp.negInf => Fp.nan
  | Fp.negInf, Fp.nan => Fp.nan
  | Fp.nan, _ => Fp.nan

/-- The comparison `x > c` with a finite constant. -/
def Fp.gt (x : Fp) (c : ℚ) : Bool :=
  match x with
  | Fp.fin a => decide (c < a)
  | Fp.posInf => true
  | Fp.negInf => false
  | Fp.nan => false

/-- The comparison `x < c` with a finite constant. -/
def Fp.lt (x : Fp) (c : ℚ) : Bool :=
  match x with
  | Fp.fin a => decide (a < c)
  | Fp.posInf => false
  | Fp.negInf => true
  | Fp.nan => false

/-- The conversion `(int) x`: truncation towards zero; `none` where it is undefined. -/
def Fp.toInt (x : Fp) : Option ℤ :=
  match x with
  | Fp.fin q =>
    if -(2 : ℤ) ^ 31 ≤ (if 0 ≤ q then ⌊q⌋ else ⌈q⌉) ∧ (if 0 ≤ q then ⌊q⌋ else ⌈q⌉) < (2 : ℤ) ^ 31
    then some (if 0 ≤ q then ⌊q⌋ else ⌈q⌉) else none
  | Fp.posInf => none
  | Fp.negInf => none
  | Fp.nan => none

/-! ## Data -/

/-- The kinematics `acquire` reads from a jet daughter (`reco::Candidate`): the `double`
values its `pt()`, `eta()` and `phi()` return. -/
structure Candidate where
  pt : Fp
  eta : Fp
  phi : Fp

/-- The kinematics (`double` values) and the daughters `acquire` reads from a `pat::Jet`. -/
structure Jet where
  pt : Fp
  eta : Fp
  phi : Fp
  daughters : List Candidate

/-- Side length of the image: `const unsigned npix = 224`. -/
def npix : Nat := 224

/-- Width of one pixel: `float pixel_width = 2./float(npix)`, the quotient taken in `double`
and stored in a `float`. -/
def pixel_width (A : Arith) : Fp :=
  Fp.cvt A.toFloat (Fp.div A.toDouble (Fp.fin 2) (Fp.cvt A.toFloat (Fp.fin (npix : ℚ))))

/-- Modelled from the spec: the constant π of `<cmath>`, which is not part of the sources;
it is the binary64 value of the macro `M_PI` (3.14159265358979323846). -/
def M_PI : ℚ := 884279719003555 / 281474976710656

/-- The array `float image2D[npix][npix]`. -/
abbrev Image := Fin npix → Fin npix → Fp

/-- The image after the initialisation loops: every entry is `0.`. -/
def zeroImage : Image := fun _ _ => Fp.fin 0

/-! ## The encoding loop of `acquire` -/

/-- The wrapped azimuthal difference:
`float dphi = i_phi - jet_phi; if (dphi > M_PI) dphi -= 2*M_PI;`
`if (dphi < -1.*M_PI) dphi += 2*M_PI;`. The difference of the two `float`s is taken in `float`;
the wrap is taken in `double` and stored back in the `float`. -/
def wrapDphi (A : Arith) (i_phi jet_phi : Fp) : Fp :=
  let dphi := Fp.sub A.toFloat i_phi jet_phi
  let dphi :=
    if Fp.gt dphi M_PI then Fp.cvt A.toFloat (Fp.sub A.toDouble dphi (Fp.fin (2 * M_PI)))
    else dphi
  let dphi :=
    if Fp.lt dphi (-1 * M_PI) then Fp.cvt A.toFloat (Fp.add A.toDouble dphi (Fp.fin (2 * M_PI)))
    else dphi
  dphi

/-- The test of the `continue` statement:
`deta > 1. || deta < -1. || dphi > 1. || dphi < -1.`. -/
def outsideImage (deta dphi : Fp) : Bool :=
  Fp.gt deta 1 || Fp.lt deta (-1) || Fp.gt dphi 1 || Fp.lt dphi (-1)

/-- The index `(int) ((d + 1.)/pixel_width)` computed from `deta` or from `dphi`: the sum and
the quotient are taken in `double`. -/
def pixelIndex (A : Arith) (d : Fp) : Option ℤ :=
  Fp.toInt (Fp.div A.toDouble (Fp.add A.toDouble d (Fp.fin 1)) (pixel_width A))

/-- The statement `image2D[i][j] += v`, the sum taken in `float`; `none` when `i` or `j` is
outside `0 .. npix - 1`. -/
def addAt (A : Arith) (image2D : Image) (i j : ℤ) (v : Fp) : Option Image :=
  if 0 ≤ i ∧ i < npix ∧ 0 ≤ j ∧ j < npix then
    some (fun a b =>
      if (a.val : ℤ) = i ∧ (b.val : ℤ) = j then Fp.add A.toFloat (image2D a b) v
      else image2D a b)
  else none

/-- One pass of the loop over the daughters of a jet (source lines 98 to 112); `jet_pt`,
`jet_phi` and `jet_eta` are the `float` locals of the jet. -/
def daughterStep (A : Arith) (jet_pt jet_phi jet_eta : Fp) (image2D : Image)
    (i_part : Candidate) : Option Image :=
  let i_pt := Fp.cvt A.toFloat i_part.pt
  let i_phi := Fp.cvt A.toFloat i_part.phi
  let i_eta := Fp.cvt A.toFloat i_part.eta
  let dphi := wrapDphi A i_phi jet_phi
  let deta := Fp.sub A.toFloat i_eta jet_eta
  if outsideImage deta dphi then some image2D
  else
    match pixelIndex A deta, pixelIndex A dphi with
    | some eta_pixel_index, some phi_pixel_index =>
      addAt A image2D eta_pixel_index phi_pixel_index (Fp.div A.toFloat i_pt jet_pt)
    | _, _ => none

/-- The loop `for (k = 0; k < i_jet.numberOfDaughters(); ++k)` over the daughters. -/
def daughterLoop (A : Arith) (jet_pt jet_phi jet_eta : Fp) :
    List Candidate → Image → Option Image
  | [], image2D => some image2D
  | i_part :: rest, image2D =>
    match daughterStep A jet_pt jet_phi jet_eta image2D i_part with
    | none => none
    | some image2D => daughterLoop A jet_pt jet_phi jet_eta rest image2D

/-- The loop `for (const auto& i_jet : jets)` with its counter `jet_ctr`: the `float` locals
`jet_pt`, `jet_phi`, `jet_eta` are taken from the jet, and after a jet
`jet_ctr++; if (jet_ctr > 0) break;`. -/
def jetLoop (A : Arith) : List Jet → ℤ → Image → Option Image
  | [], _, image2D => some image2D
  | i_jet :: rest, jet_ctr, image2D =>
    match daughterLoop A (Fp.cvt A.toFloat i_jet.pt) (Fp.cvt A.toFloat i_jet.phi)
        (Fp.cvt A.toFloat i_jet.eta) i_jet.daughters image2D with
    | none => none
    | some image2D =>
      let jet_ctr := jet_ctr + 1
      if jet_ctr > 0 then some image2D else jetLoop A rest jet_ctr image2D

/-- The image `acquire` accumulates for the jets of an event (source lines 83 to 119). -/
def encodeImage (A : Arith) (jets : List Jet) : Option Image :=
  jetLoop A jets 0 zeroImage

/-! ## The request tensor and the timing record -/

/-- Element types of a tensor; `acquire` uses `tensorflow::DT_FLOAT`. -/
inductive DataType where
  | DT_FLOAT
  deriving DecidableEq, Repr

/-- A `tensorflow::Tensor` seen through a rank-4 map: element type, shape and elements. -/
structure Tensor where
  dtype : DataType
  shape : List Nat
  data : Nat → Nat → Nat → Nat → Fp

/-- The constructor `Input(dtype, shape)`; the elements of a new tensor are taken as `0`. -/
def Tensor.alloc (dtype : DataType) (shape : List Nat) : Tensor :=
  { dtype := dtype, shape := shape, data := fun _ _ _ _ => Fp.fin 0 }

/-- The assignment `input_map(b,i,j,c) = v`. -/
def Tensor.set (t : Tensor) (b i j c : Nat) (v : Fp) : Tensor :=
  { t with data := fun b1 i1 j1 c1 =>
      if b1 = b ∧ i1 = i ∧ j1 = j ∧ c1 = c then v else t.data b1 i1 j1 c1 }

/-- The member struct `Inference`: four timestamps, the top label and the top score. -/
structure Inference where
  start_acquire : ℤ
  end_acquire : ℤ
  start_produce : ℤ
  end_produce : ℤ
  type : String
  probability : ℚ
  deriving DecidableEq

/-- The value-initialised record `Inference()`. -/
def Inference.init : Inference :=
  { start_acquire := 0, end_acquire := 0, start_produce := 0, end_produce := 0,
    type := "", probability := 0 }

/-- The mutable members of one `JetImageProducer` instance the two phases touch, the lines
written to `outfile` (one record of six fields per line), and the number of clock reads made
so far. -/
structure Producer where
  topN_ : Nat
  imageList_ : List String
  inference_ : Inference
  outfile : List Inference
  clockReads : Nat

/-- The member function `timeSinceEpoch()`: the value read and the state after the read. -/
def timeSinceEpoch (clock : Nat → ℤ) (s : Producer) : ℤ × Producer :=
  (clock s.clockReads, { s with clockReads := s.clockReads + 1 })

/-- The inner loop over `jtf` of the tensor conversion: three channel writes per pixel. -/
def fillRow (image2D : Image) (itf : Fin npix) (input_map : Tensor) : Tensor :=
  (List.finRange npix).foldl
    (fun (input_map : Tensor) (jtf : Fin npix) =>
      let input_map := input_map.set 0 itf jtf 0 (image2D itf jtf)
      let input_map := input_map.set 0 itf jtf 1 (image2D itf jtf)
      let input_map := input_map.set 0 itf jtf 2 (image2D itf jtf)
      input_map)
    input_map

/-- The outer loop over `itf` of the tensor conversion; each pass ends with
`inference_.end_acquire = timeSinceEpoch()`. -/
def fillTensor (clock : Nat → ℤ) (image2D : Image) (st : Tensor × Producer) :
    Tensor × Producer :=
  (List.finRange npix).foldl
    (fun (st : Tensor × Producer) (itf : Fin npix) =>
      let input_map := fillRow image2D itf st.1
      let r := timeSinceEpoch clock st.2
      (input_map, { r.2 with inference_ := { r.2.inference_ with end_acquire := r.1 } }))
    st

/-- The first two statements of `acquire`:
`inference_ = Inference(); inference_.start_acquire = timeSinceEpoch();`. -/
def acquireStart (clock : Nat → ℤ) (s : Producer) : Producer :=
  let s := { s with inference_ := Inference.init }
  let r := timeSinceEpoch clock s
  { r.2 with inference_ := { r.2.inference_ with start_acquire := r.1 } }

/-- The member function `acquire`: the state after it and the tensor `iInput`; `none` when the
encoding loop runs into undefined behaviour. -/
def acquire (clock : Nat → ℤ) (s : Producer) (jets : List Jet) : Option (Producer × Tensor) :=
  let s := acquireStart clock s
  match encodeImage ieeeArith jets with
  | none => none
  | some image2D =>
    let iInput := Tensor.alloc DataType.DT_FLOAT [1, npix, npix, 3]
    let st := fillTensor clock image2D (iInput, s)
    some (st.2, st.1)

/-! ## Ranking: `findTopN` -/

/-- The cast `(unsigned) n`. -/
def toUnsigned (n : Nat) : Nat := n % 2 ^ 32

/-- A `std::map<float,std::string,std::greater<float>>`, as its entries in iteration order. -/
abbrev ScoreMap := List (ℚ × String)

/-- The order in which `score_map` is iterated: an entry comes before every entry with a
smaller key (`std::greater<float>`). -/
abbrev largerKey (a b : ℚ × String) : Prop := a.1 > b.1

/-- The call `score_map.emplace(k, v)`: the entry is inserted at its place in the
largest-first order unless an entry with an equivalent key is present. -/
def emplace : ScoreMap → ℚ → String → ScoreMap
  | [], k, v => [(k, v)]
  | (k1, v1) :: rest, k, v =>
    if k > k1 then (k, v) :: (k1, v1) :: rest
    else if k1 > k then (k1, v1) :: emplace rest k v
    else (k1, v1) :: rest

/-- The loop that fills `score_map`, run for the indices `i < n`:
`score_map.emplace(score_list(i), imageList_[i])`. -/
def fillLoop (score_list : List ℚ) (imageList_ : List String) (n : Nat) : ScoreMap :=
  (List.range n).foldl
    (fun score_map i => emplace score_map (score_list.getD i 0) (imageList_.getD i ""))
    []

/-- The map after the loop
`for (unsigned i = 0; i < std::min((unsigned)dim, (unsigned)imageList_.size()); ++i)`. -/
def fillScoreMap (score_list : List ℚ) (imageList_ : List String) : ScoreMap :=
  let dim := score_list.length
  fillLoop score_list imageList_ (min (toUnsigned dim) (toUnsigned imageList_.length))

/-- The loop over `score_map` with its `unsigned counter`: the `label : score` lines written to
`msg` and the record after the loop. -/
def topLoop (topN_ : Nat) : ScoreMap → Nat → Inference → List (String × ℚ) × Inference
  | [], _, inference_ => ([], inference_)
  | item :: rest, counter, inference_ =>
    let inference_ :=
      if counter = 0 then { inference_ with type := item.2, probability := item.1 }
      else inference_
    let counter := toUnsigned (counter + 1)
    if counter ≥ topN_ then ([(item.2, item.1)], inference_)
    else
      let r := topLoop topN_ rest counter inference_
      ((item.2, item.1) :: r.1, r.2)

/-- The message `findTopN` logs: the header value `dim` and the `label : score` lines. -/
structure LogMessage where
  dim : Nat
  entries : List (String × ℚ)

/-- The member function `findTopN`. -/
def findTopN (s : Producer) (scores : List ℚ) : Producer × LogMessage :=
  let score_list := scores
  let dim := score_list.length
  let score_map := fillScoreMap score_list s.imageList_
  let r := topLoop s.topN_ score_map 0 s.inference_
  ({ s with inference_ := r.2 }, { dim := dim, entries := r.1 })

/-- The member function `produce`: the state after it and the message `findTopN` logged. -/
def produce (clock : Nat → ℤ) (s : Producer) (iOutput : List ℚ) : Producer × LogMessage :=
  let r := timeSinceEpoch clock s
  let s := { r.2 with inference_ := { r.2.inference_ with start_produce := r.1 } }
  let f := findTopN s iOutput
  let s := f.1
  let r := timeSinceEpoch clock s
  let s := { r.2 with inference_ := { r.2.inference_ with end_produce := r.1 } }
  ({ s with outfile := s.outfile ++ [s.inference_] }, f.2)

/-! ## The ranking as the specification words it -/

/-- The ranking of the specification: pair each score with the label at the same index,
sort the pairs by score, largest first, and keep the first `min topN pairCount` pairs. -/
def rankSpec (scores : List ℚ) (labels : List String) (topN : Nat) : List (String × ℚ) :=
  let pairs := List.zipWith (fun score label => (label, score)) scores labels
  let pairCount := min scores.length labels.length
  (pairs.insertionSort (fun a b => a.2 ≥ b.2)).take (min topN pairCount)


/-! ## Concrete scenarios -/

/-- The jet of the specification scenario: (eta=0, phi=0, pt=100) with the one constituent
(pt=10, eta=0.1, phi=0.1), the kinematics being the `double` values of these decimals. -/
def scenarioJet : Jet :=
  { pt := Fp.fin 100, eta := Fp.fin 0, phi := Fp.fin 0,
    daughters :=
      [{ pt := Fp.fin 10, eta := roundTo binary64 (1 / 10), phi := roundTo binary64 (1 / 10) }] }

/-- The image the loop builds in the specification scenario: the `float` nearest to 0.1,
13421773 / 2 ^ 27, at [123][123] and 0 elsewhere. -/
def scenarioImage : Image :=
  fun a b => if a.val = 123 ∧ b.val = 123 then Fp.fin (13421773 / 2 ^ 27) else Fp.fin 0

/-- A clock whose n-th read returns n. -/
def tickClock : Nat → ℤ := fun n => (n : ℤ)

/-- A producer before its first event: `topN` 5, three labels, nothing logged yet. -/
def freshProducer : Producer :=
  { topN_ := 5, imageList_ := ["top", "qcd", "higgs"], inference_ := Inference.init,
    outfile := [], clockReads := 0 }


/-! ## Theorems: rounding -/

theorem two_zpow_pos (v : ℤ) : (0 : ℚ) < (2 : ℚ) ^ v :=
  zpow_pos (by norm_num) v

theorem roundHalfEven_cases (x : ℚ) : roundHalfEven x = ⌊x⌋ ∨ roundHalfEven x = ⌊x⌋ + 1 := by
  unfold roundHalfEven
  split_ifs <;> simp

theorem roundHalfEven_le (x : ℚ) (K : ℤ) (h : x ≤ K) : roundHalfEven x ≤ K := by
  have hfl : (⌊x⌋ : ℚ) ≤ x := Int.floor_le x
  have h1 : ⌊x⌋ ≤ K := by exact_mod_cast hfl.trans h
  unfold roundHalfEven
  by_cases c1 : x - ⌊x⌋ < 1 / 2
  · rw [if_pos c1]; exact h1
  · have h2 : (⌊x⌋ : ℚ) < K := by linarith
    have h3 : ⌊x⌋ < K := by exact_mod_cast h2
    rw [if_neg c1]
    split_ifs <;> omega

theorem roundHalfEven_ge (x : ℚ) (K : ℤ) (h : (K : ℚ) ≤ x) : K ≤ roundHalfEven x := by
  have h1 : K ≤ ⌊x⌋ := Int.le_floor.mpr h
  rcases roundHalfEven_cases x with c | c <;> omega

theorem roundHalfEven_err (x : ℚ) : |(roundHalfEven x : ℚ) - x| ≤ 1 / 2 := by
  have hfl : (⌊x⌋ : ℚ) ≤ x := Int.floor_le x
  have hlt : x < (⌊x⌋ : ℚ) + 1 := Int.lt_floor_add_one x
  rw [abs_le]
  unfold roundHalfEven
  by_cases c1 : x - ⌊x⌋ < 1 / 2
  · rw [if_pos c1]; constructor <;> linarith
  · rw [if_neg c1]
    by_cases c2 : 1 / 2 < x - ⌊x⌋
    · rw [if_pos c2]; push_cast; constructor <;> linarith
    · rw [if_neg c2]
      have he : x - ⌊x⌋ = 1 / 2 := le_antisymm (not_lt.mp c2) (not_lt.mp c1)
      split_ifs
      · constructor <;> linarith
      · push_cast; constructor <;> linarith

theorem roundHalfEven_ge_half (x : ℚ) (K : ℤ) (h : (K : ℚ) - 1 / 2 < x) :
    K ≤ roundHalfEven x := by
  have he := (abs_le.mp (roundHalfEven_err x)).1
  have h1 : ((K - 1 : ℤ) : ℚ) < (roundHalfEven x : ℚ) := by push_cast; linarith
  have h2 : K - 1 < roundHalfEven x := by exact_mod_cast h1
  omega

theorem roundHalfEven_le_half (x : ℚ) (K : ℤ) (h : x < (K : ℚ) + 1 / 2) :
    roundHalfEven x ≤ K := by
  have he := (abs_le.mp (roundHalfEven_err x)).2
  have h1 : (roundHalfEven x : ℚ) < ((K + 1 : ℤ) : ℚ) := by push_cast; linarith
  have h2 : roundHalfEven x < K + 1 := by exact_mod_cast h1
  omega

theorem roundHalfEven_eq (x : ℚ) (m : ℤ) (h1 : (m : ℚ) - 1 / 2 < x) (h2 : x < (m : ℚ) + 1 / 2) :
    roundHalfEven x = m :=
  le_antisymm (roundHalfEven_le_half x m h2) (roundHalfEven_ge_half x m h1)

theorem log_le_of_lt (x : ℚ) (e : ℤ) (he : 0 ≤ e) (h : |x| < (2 : ℚ) ^ (e + 1)) :
    Int.log 2 |x| ≤ e := by
  rcases (abs_nonneg x).eq_or_lt with h0 | h0
  · rw [← h0, Int.log_zero_right]; exact he
  · have := (Int.lt_zpow_iff_log_lt (by norm_num : 1 < 2) h0).mp (by exact_mod_cast h)
    omega

theorem le_log_of_le (x : ℚ) (e : ℤ) (h : (2 : ℚ) ^ e ≤ |x|) : e ≤ Int.log 2 |x| := by
  have h0 : 0 < |x| := lt_of_lt_of_le (two_zpow_pos e) h
  exact (Int.zpow_le_iff_le_log (by norm_num : 1 < 2) h0).mp (by exact_mod_cast h)

theorem quantumExp_le (f : Format) (x : ℚ) (e : ℤ) (he : 0 ≤ e) (hm : f.emin ≤ e)
    (h : |x| < (2 : ℚ) ^ (e + 1)) : quantumExp f x ≤ e - ((f.prec : ℤ) - 1) := by
  have h1 := log_le_of_lt x e he h
  unfold quantumExp
  have : max (Int.log 2 |x|) f.emin ≤ e := max_le h1 hm
  omega

theorem le_quantumExp (f : Format) (x : ℚ) (e : ℤ) (h : (2 : ℚ) ^ e ≤ |x|) :
    e - ((f.prec : ℤ) - 1) ≤ quantumExp f x := by
  have h1 := le_log_of_le x e h
  unfold quantumExp
  have : Int.log 2 |x| ≤ max (Int.log 2 |x|) f.emin := le_max_left _ _
  omega

theorem quantumExp_eq (f : Format) (x : ℚ) (e : ℤ) (hm : f.emin ≤ e)
    (h1 : (2 : ℚ) ^ e ≤ |x|) (h2 : |x| < (2 : ℚ) ^ (e + 1)) :
    quantumExp f x = e - ((f.prec : ℤ) - 1) := by
  have h0 : 0 < |x| := lt_of_lt_of_le (two_zpow_pos e) h1
  have ha := le_log_of_le x e h1
  have hb := (Int.lt_zpow_iff_log_lt (by norm_num : 1 < 2) h0).mp (by exact_mod_cast h2)
  have hl : Int.log 2 |x| = e := by omega
  unfold quantumExp
  rw [hl, max_eq_left hm]

theorem two_zpow_split (u v : ℤ) (h : u ≤ v) :
    ∃ n : ℕ, (2 : ℚ) ^ v = ((2 ^ n : ℤ) : ℚ) * (2 : ℚ) ^ u := by
  obtain ⟨n, hn⟩ := Int.eq_ofNat_of_zero_le (sub_nonneg.mpr h)
  refine ⟨n, ?_⟩
  have hv : v = (n : ℤ) + u := by omega
  rw [hv, zpow_add₀ (by norm_num : (2 : ℚ) ≠ 0), zpow_natCast]
  push_cast
  rfl

theorem roundQ_le (f : Format) (x : ℚ) (K v : ℤ) (hv : quantumExp f x ≤ v)
    (h : x ≤ (K : ℚ) * (2 : ℚ) ^ v) : roundQ f x ≤ (K : ℚ) * (2 : ℚ) ^ v := by
  obtain ⟨n, hn⟩ := two_zpow_split _ _ hv
  have hp := two_zpow_pos (quantumExp f x)
  have h1 : x / (2 : ℚ) ^ quantumExp f x ≤ ((K * 2 ^ n : ℤ) : ℚ) := by
    rw [div_le_iff₀ hp]
    rw [hn] at h
    push_cast
    push_cast at h
    linarith
  have h2 := roundHalfEven_le _ _ h1
  have h3 : (roundHalfEven (x / (2 : ℚ) ^ quantumExp f x) : ℚ) ≤ ((K * 2 ^ n : ℤ) : ℚ) := by
    exact_mod_cast h2
  unfold roundQ
  rw [hn]
  calc (roundHalfEven (x / (2 : ℚ) ^ quantumExp f x) : ℚ) * (2 : ℚ) ^ quantumExp f x
      ≤ ((K * 2 ^ n : ℤ) : ℚ) * (2 : ℚ) ^ quantumExp f x :=
        mul_le_mul_of_nonneg_right h3 (le_of_lt hp)
    _ = (K : ℚ) * (((2 ^ n : ℤ) : ℚ) * (2 : ℚ) ^ quantumExp f x) := by push_cast; ring

theorem roundQ_ge (f : Format) (x : ℚ) (K v : ℤ) (hv : quantumExp f x ≤ v)
    (h : (K : ℚ) * (2 : ℚ) ^ v ≤ x) : (K : ℚ) * (2 : ℚ) ^ v ≤ roundQ f x := by
  obtain ⟨n, hn⟩ := two_zpow_split _ _ hv
  have hp := two_zpow_pos (quantumExp f x)
  have h1 : ((K * 2 ^ n : ℤ) : ℚ) ≤ x / (2 : ℚ) ^ quantumExp f x := by
    rw [le_div_iff₀ hp]
    rw [hn] at h
    push_cast
    push_cast at h
    linarith
  have h2 := roundHalfEven_ge _ _ h1
  have h3 : ((K * 2 ^ n : ℤ) : ℚ) ≤ (roundHalfEven (x / (2 : ℚ) ^ quantumExp f x) : ℚ) := by
    exact_mod_cast h2
  unfold roundQ
  rw [hn]
  calc (K : ℚ) * (((2 ^ n : ℤ) : ℚ) * (2 : ℚ) ^ quantumExp f x)
      = ((K * 2 ^ n : ℤ) : ℚ) * (2 : ℚ) ^ quantumExp f x := by push_cast; ring
    _ ≤ (roundHalfEven (x / (2 : ℚ) ^ quantumExp f x) : ℚ) * (2 : ℚ) ^ quantumExp f x :=
        mul_le_mul_of_nonneg_right h3 (le_of_lt hp)

theorem roundQ_err (f : Format) (x : ℚ) :
    |roundQ f x - x| ≤ (2 : ℚ) ^ quantumExp f x / 2 := by
  have hp := two_zpow_pos (quantumExp f x)
  have he := roundHalfEven_err (x / (2 : ℚ) ^ quantumExp f x)
  have hx : x = x / (2 : ℚ) ^ quantumExp f x * (2 : ℚ) ^ quantumExp f x := by
    field_simp
  have hd : roundQ f x - x
      = ((roundHalfEven (x / (2 : ℚ) ^ quantumExp f x) : ℚ) - x / (2 : ℚ) ^ quantumExp f x)
        * (2 : ℚ) ^ quantumExp f x := by
    unfold roundQ
    rw [sub_mul, ← hx]
  rw [hd, abs_mul, abs_of_pos hp]
  calc |(roundHalfEven (x / (2 : ℚ) ^ quantumExp f x) : ℚ) - x / (2 : ℚ) ^ quantumExp f x|
        * (2 : ℚ) ^ quantumExp f x
      ≤ 1 / 2 * (2 : ℚ) ^ quantumExp f x := mul_le_mul_of_nonneg_right he (le_of_lt hp)
    _ = (2 : ℚ) ^ quantumExp f x / 2 := by ring

theorem roundQ_err_le (f : Format) (x : ℚ) (v : ℤ) (hv : quantumExp f x ≤ v) :
    |roundQ f x - x| ≤ (2 : ℚ) ^ v / 2 := by
  have h1 := roundQ_err f x
  have h2 : (2 : ℚ) ^ quantumExp f x ≤ (2 : ℚ) ^ v :=
    zpow_le_zpow_right₀ (by norm_num) hv
  linarith

theorem roundQ_grid (f : Format) (x : ℚ) (v : ℤ) (hv : v ≤ quantumExp f x) :
    ∃ N : ℤ, roundQ f x = (N : ℚ) * (2 : ℚ) ^ v := by
  obtain ⟨n, hn⟩ := two_zpow_split _ _ hv
  refine ⟨roundHalfEven (x / (2 : ℚ) ^ quantumExp f x) * 2 ^ n, ?_⟩
  unfold roundQ
  rw [hn]
  push_cast
  ring

theorem roundQ_eq (f : Format) (x : ℚ) (u m : ℤ) (hu : quantumExp f x = u)
    (h1 : ((m : ℚ) - 1 / 2) * (2 : ℚ) ^ u < x) (h2 : x < ((m : ℚ) + 1 / 2) * (2 : ℚ) ^ u) :
    roundQ f x = (m : ℚ) * (2 : ℚ) ^ u := by
  have hp := two_zpow_pos u
  unfold roundQ
  rw [hu, roundHalfEven_eq _ m]
  · rw [lt_div_iff₀ hp]; exact h1
  · rw [div_lt_iff₀ hp]; exact h2

theorem roundQ_ge_half (f : Format) (x : ℚ) (u K : ℤ) (hu : quantumExp f x = u)
    (h : ((K : ℚ) - 1 / 2) * (2 : ℚ) ^ u < x) : (K : ℚ) * (2 : ℚ) ^ u ≤ roundQ f x := by
  have hp := two_zpow_pos u
  have h1 : K ≤ roundHalfEven (x / (2 : ℚ) ^ u) := by
    apply roundHalfEven_ge_half
    rw [lt_div_iff₀ hp]; exact h
  have h2 : (K : ℚ) ≤ (roundHalfEven (x / (2 : ℚ) ^ u) : ℚ) := by exact_mod_cast h1
  unfold roundQ
  rw [hu]
  exact mul_le_mul_of_nonneg_right h2 (le_of_lt hp)

theorem roundQ_le_half (f : Format) (x : ℚ) (u K : ℤ) (hu : quantumExp f x = u)
    (h : x < ((K : ℚ) + 1 / 2) * (2 : ℚ) ^ u) : roundQ f x ≤ (K : ℚ) * (2 : ℚ) ^ u := by
  have hp := two_zpow_pos u
  have h1 : roundHalfEven (x / (2 : ℚ) ^ u) ≤ K := by
    apply roundHalfEven_le_half
    rw [div_lt_iff₀ hp]; exact h
  have h2 : (roundHalfEven (x / (2 : ℚ) ^ u) : ℚ) ≤ (K : ℚ) := by exact_mod_cast h1
  unfold roundQ
  rw [hu]
  exact mul_le_mul_of_nonneg_right h2 (le_of_lt hp)

theorem roundTo_of_abs_le (f : Format) (x : ℚ) (h1 : -maxFinite f ≤ roundQ f x)
    (h2 : roundQ f x ≤ maxFinite f) : roundTo f x = Fp.fin (roundQ f x) := by
  unfold roundTo
  rw [if_neg (not_lt.mpr h2), if_neg (not_lt.mpr h1)]

theorem maxFinite_binary32 : maxFinite binary32 = (2 ^ 24 - 1) * 2 ^ 104 := by
  norm_num [maxFinite, binary32]

theorem maxFinite_binary64 : maxFinite binary64 = (2 ^ 53 - 1) * 2 ^ 971 := by
  norm_num [maxFinite, binary64]

theorem roundTo_eq (f : Format) (x : ℚ) (e m : ℤ) (hm : f.emin ≤ e)
    (h1 : (2 : ℚ) ^ e ≤ |x|) (h2 : |x| < (2 : ℚ) ^ (e + 1))
    (h3 : ((m : ℚ) - 1 / 2) * (2 : ℚ) ^ (e - ((f.prec : ℤ) - 1)) < x)
    (h4 : x < ((m : ℚ) + 1 / 2) * (2 : ℚ) ^ (e - ((f.prec : ℤ) - 1)))
    (h5 : -maxFinite f ≤ (m : ℚ) * (2 : ℚ) ^ (e - ((f.prec : ℤ) - 1)))
    (h6 : (m : ℚ) * (2 : ℚ) ^ (e - ((f.prec : ℤ) - 1)) ≤ maxFinite f) :
    roundTo f x = Fp.fin ((m : ℚ) * (2 : ℚ) ^ (e - ((f.prec : ℤ) - 1))) := by
  have hq := roundQ_eq f x _ m (quantumExp_eq f x e hm h1 h2) h3 h4
  rw [roundTo_of_abs_le f x (by rw [hq]; exact h5) (by rw [hq]; exact h6), hq]

theorem roundQ_zero (f : Format) : roundQ f 0 = 0 := by
  simp [roundQ, roundHalfEven]

theorem roundTo_binary32_zero : roundTo binary32 0 = Fp.fin 0 := by
  have h := roundTo_of_abs_le binary32 0
    (by rw [roundQ_zero, maxFinite_binary32]; norm_num)
    (by rw [roundQ_zero, maxFinite_binary32]; norm_num)
  rw [h, roundQ_zero]

theorem roundTo_binary64_zero : roundTo binary64 0 = Fp.fin 0 := by
  have h := roundTo_of_abs_le binary64 0
    (by rw [roundQ_zero, maxFinite_binary64]; norm_num)
    (by rw [roundQ_zero, maxFinite_binary64]; norm_num)
  rw [h, roundQ_zero]

theorem quantumExp32_le (x : ℚ) (e : ℤ) (he : 0 ≤ e) (h : |x| < (2 : ℚ) ^ (e + 1)) :
    quantumExp binary32 x ≤ e - 23 := by
  have h1 := quantumExp_le binary32 x e he (by simp only [binary32]; omega) h
  have h2 : ((binary32.prec : ℕ) : ℤ) = 24 := rfl
  rw [h2] at h1
  omega

theorem quantumExp64_le (x : ℚ) (e : ℤ) (he : 0 ≤ e) (h : |x| < (2 : ℚ) ^ (e + 1)) :
    quantumExp binary64 x ≤ e - 52 := by
  have h1 := quantumExp_le binary64 x e he (by simp only [binary64]; omega) h
  have h2 : ((binary64.prec : ℕ) : ℤ) = 53 := rfl
  rw [h2] at h1
  omega

theorem le_quantumExp32 (x : ℚ) (e : ℤ) (h : (2 : ℚ) ^ e ≤ |x|) :
    e - 23 ≤ quantumExp binary32 x := by
  have h1 := le_quantumExp binary32 x e h
  have h2 : ((binary32.prec : ℕ) : ℤ) = 24 := rfl
  rw [h2] at h1
  omega

/-! ## Theorems: the pixel width and the pixel index -/

theorem roundTo_binary32_npix : roundTo binary32 (npix : ℚ) = Fp.fin 224 := by
  have h := roundTo_eq binary32 (npix : ℚ) 7 14680064 (by norm_num [binary32])
    (by norm_num [npix]) (by norm_num [npix]) (by norm_num [npix, binary32])
    (by norm_num [npix, binary32]) (by rw [maxFinite_binary32]; norm_num [binary32])
    (by rw [maxFinite_binary32]; norm_num [binary32])
  rw [h]
  norm_num [binary32]

theorem roundTo_binary64_ratio :
    roundTo binary64 (2 / 224) = Fp.fin (5146971002709138 / 2 ^ 59) := by
  have h := roundTo_eq binary64 (2 / 224) (-7) 5146971002709138 (by norm_num [binary64])
    (by rw [abs_of_pos] <;> norm_num) (by rw [abs_of_pos] <;> norm_num)
    (by norm_num [binary64]) (by norm_num [binary64])
    (by rw [maxFinite_binary64]; norm_num [binary64])
    (by rw [maxFinite_binary64]; norm_num [binary64])
  rw [h]
  norm_num [binary64]

theorem roundTo_binary32_ratio :
    roundTo binary32 (5146971002709138 / 2 ^ 59) = Fp.fin (9586981 / 2 ^ 30) := by
  have h := roundTo_eq binary32 (5146971002709138 / 2 ^ 59) (-7) 9586981
    (by norm_num [binary32])
    (by rw [abs_of_pos] <;> norm_num) (by rw [abs_of_pos] <;> norm_num)
    (by norm_num [binary32]) (by norm_num [binary32])
    (by rw [maxFinite_binary32]; norm_num [binary32])
    (by rw [maxFinite_binary32]; norm_num [binary32])
  rw [h]
  norm_num [binary32]

theorem pixel_width_ieee : pixel_width ieeeArith = Fp.fin (9586981 / 2 ^ 30) := by
  simp only [pixel_width, ieeeArith, Fp.cvt, roundTo_binary32_npix, Fp.div]
  norm_num
  rw [show (1 / 112 : ℚ) = 2 / 224 by norm_num, roundTo_binary64_ratio]
  simp only [Fp.cvt]
  exact roundTo_binary32_ratio

theorem pixel_width_exact : pixel_width exactArith = Fp.fin (1 / 112) := by
  simp only [pixel_width, exactArith, Fp.cvt, Fp.div]
  norm_num [npix]

theorem roundTo_between (f : Format) (x : ℚ) (K1 K2 v : ℤ) (hv : quantumExp f x ≤ v)
    (h1 : (K1 : ℚ) * (2 : ℚ) ^ v ≤ x) (h2 : x ≤ (K2 : ℚ) * (2 : ℚ) ^ v)
    (hm1 : -maxFinite f ≤ (K1 : ℚ) * (2 : ℚ) ^ v) (hm2 : (K2 : ℚ) * (2 : ℚ) ^ v ≤ maxFinite f) :
    roundTo f x = Fp.fin (roundQ f x)
      ∧ (K1 : ℚ) * (2 : ℚ) ^ v ≤ roundQ f x ∧ roundQ f x ≤ (K2 : ℚ) * (2 : ℚ) ^ v := by
  have ha := roundQ_ge f x K1 v hv h1
  have hb := roundQ_le f x K2 v hv h2
  exact ⟨roundTo_of_abs_le f x (hm1.trans ha) (hb.trans hm2), ha, hb⟩

theorem toInt_fin_nonneg (q : ℚ) (h0 : 0 ≤ q) (h1 : q < 2 ^ 31) :
    Fp.toInt (Fp.fin q) = some ⌊q⌋ := by
  have hf0 : 0 ≤ ⌊q⌋ := Int.floor_nonneg.mpr h0
  have hf1 : ⌊q⌋ < (2 : ℤ) ^ 31 := by
    rw [Int.floor_lt]; push_cast; exact h1
  unfold Fp.toInt
  simp only [if_pos h0]
  rw [if_pos ⟨by omega, hf1⟩]

theorem sum_one_binary64 (d : ℚ) (h1 : -1 ≤ d) (h2 : d ≤ 1) :
    roundTo binary64 (d + 1) = Fp.fin (roundQ binary64 (d + 1))
      ∧ 0 ≤ roundQ binary64 (d + 1) ∧ roundQ binary64 (d + 1) ≤ 2 := by
  have hv : quantumExp binary64 (d + 1) ≤ 1 := by
    have := quantumExp64_le (d + 1) 1 (by norm_num)
      (by rw [abs_lt]; constructor <;> norm_num <;> linarith)
    omega
  have h := roundTo_between binary64 (d + 1) 0 1 1 hv (by norm_num; linarith)
    (by norm_num; linarith) (by rw [maxFinite_binary64]; norm_num)
    (by rw [maxFinite_binary64]; norm_num)
  norm_num at h
  exact h

theorem quotient_binary64 (s : ℚ) (h1 : 0 ≤ s) (h2 : s ≤ 2) :
    roundTo binary64 (s / (9586981 / 2 ^ 30))
        = Fp.fin (roundQ binary64 (s / (9586981 / 2 ^ 30)))
      ∧ 0 ≤ roundQ binary64 (s / (9586981 / 2 ^ 30))
      ∧ roundQ binary64 (s / (9586981 / 2 ^ 30)) ≤ 224 - 1 / 2 ^ 20 := by
  have hq : s / (9586981 / 2 ^ 30) = s * (2 ^ 30 / 9586981) := by
    field_simp
  have hv : quantumExp binary64 (s / (9586981 / 2 ^ 30)) ≤ -20 := by
    have := quantumExp64_le (s / (9586981 / 2 ^ 30)) 7 (by norm_num)
      (by rw [hq, abs_lt]; constructor <;> norm_num <;> linarith)
    omega
  have h := roundTo_between binary64 (s / (9586981 / 2 ^ 30)) 0 234881023 (-20) hv
    (by rw [hq]; norm_num; linarith) (by rw [hq]; norm_num; linarith)
    (by rw [maxFinite_binary64]; norm_num) (by rw [maxFinite_binary64]; norm_num)
  norm_num at h
  refine ⟨h.1, h.2.1, ?_⟩
  have := h.2.2
  norm_num
  linarith

theorem pixelIndex_fin (d : ℚ) (h1 : -1 ≤ d) (h2 : d ≤ 1) :
    pixelIndex ieeeArith (Fp.fin d)
        = some ⌊roundQ binary64 (roundQ binary64 (d + 1) / (9586981 / 2 ^ 30))⌋
      ∧ 0 ≤ ⌊roundQ binary64 (roundQ binary64 (d + 1) / (9586981 / 2 ^ 30))⌋
      ∧ ⌊roundQ binary64 (roundQ binary64 (d + 1) / (9586981 / 2 ^ 30))⌋ < (npix : ℤ) := by
  obtain ⟨hs, hs0, hs2⟩ := sum_one_binary64 d h1 h2
  obtain ⟨hy, hy0, hy2⟩ := quotient_binary64 _ hs0 hs2
  refine ⟨?_, Int.floor_nonneg.mpr hy0, ?_⟩
  · unfold pixelIndex
    rw [pixel_width_ieee]
    simp only [ieeeArith, Fp.add, hs, Fp.div]
    rw [if_neg (by norm_num), hy]
    exact toInt_fin_nonneg _ hy0 (by linarith)
  · rw [Int.floor_lt]
    have : ((npix : ℤ) : ℚ) = 224 := by norm_num [npix]
    rw [this]
    linarith

theorem pixelIndex_nan (A : Arith) : pixelIndex A Fp.nan = none := by
  unfold pixelIndex
  cases pixel_width A <;> rfl

theorem outsideImage_fin (e p : ℚ) :
    outsideImage (Fp.fin e) (Fp.fin p) = true ↔ (1 < e ∨ e < -1 ∨ 1 < p ∨ p < -1) := by
  simp [outsideImage, Fp.gt, Fp.lt, or_assoc]

/-! ## Theorems: one pass of the loop over the daughters -/

theorem daughterStep_outside (A : Arith) (jet_pt jet_phi jet_eta : Fp) (image2D : Image)
    (i_part : Candidate)
    (h : outsideImage (Fp.sub A.toFloat (Fp.cvt A.toFloat i_part.eta) jet_eta)
        (wrapDphi A (Fp.cvt A.toFloat i_part.phi) jet_phi) = true) :
    daughterStep A jet_pt jet_phi jet_eta image2D i_part = some image2D := by
  unfold daughterStep
  simp only []
  rw [if_pos h]

theorem daughterStep_nan (A : Arith) (jet_pt jet_phi jet_eta : Fp) (image2D : Image)
    (i_part : Candidate)
    (h : outsideImage (Fp.sub A.toFloat (Fp.cvt A.toFloat i_part.eta) jet_eta)
        (wrapDphi A (Fp.cvt A.toFloat i_part.phi) jet_phi) = false)
    (hn : Fp.sub A.toFloat (Fp.cvt A.toFloat i_part.eta) jet_eta = Fp.nan
      ∨ wrapDphi A (Fp.cvt A.toFloat i_part.phi) jet_phi = Fp.nan) :
    daughterStep A jet_pt jet_phi jet_eta image2D i_part = none := by
  unfold daughterStep
  simp only []
  rw [if_neg (by rw [h]; simp)]
  rcases hn with hn | hn
  · rw [hn, pixelIndex_nan]
  · rw [hn, pixelIndex_nan]
    cases pixelIndex A (Fp.sub A.toFloat (Fp.cvt A.toFloat i_part.eta) jet_eta) <;> rfl

theorem daughterStep_eq (jet_pt jet_phi jet_eta : Fp) (image2D : Image) (i_part : Candidate)
    (e p : ℚ)
    (he : Fp.sub ieeeArith.toFloat (Fp.cvt ieeeArith.toFloat i_part.eta) jet_eta = Fp.fin e)
    (hp : wrapDphi ieeeArith (Fp.cvt ieeeArith.toFloat i_part.phi) jet_phi = Fp.fin p)
    (he1 : |e| ≤ 1) (hp1 : |p| ≤ 1) :
    daughterStep ieeeArith jet_pt jet_phi jet_eta image2D i_part
      = some (fun a b =>
          if (a.val : ℤ) = ⌊roundQ binary64 (roundQ binary64 (e + 1) / (9586981 / 2 ^ 30))⌋
              ∧ (b.val : ℤ) = ⌊roundQ binary64 (roundQ binary64 (p + 1) / (9586981 / 2 ^ 30))⌋
          then Fp.add ieeeArith.toFloat (image2D a b)
            (Fp.div ieeeArith.toFloat (Fp.cvt ieeeArith.toFloat i_part.pt) jet_pt)
          else image2D a b) := by
  rw [abs_le] at he1 hp1
  obtain ⟨hie, hie0, hie1⟩ := pixelIndex_fin e he1.1 he1.2
  obtain ⟨hip, hip0, hip1⟩ := pixelIndex_fin p hp1.1 hp1.2
  have hin : outsideImage (Fp.fin e) (Fp.fin p) = false := by
    rw [← Bool.not_eq_true, outsideImage_fin]
    intro h
    rcases h with h | h | h | h <;> linarith [he1.1, he1.2, hp1.1, hp1.2]
  unfold daughterStep
  simp only [he, hp, hin, hie, hip, Bool.false_eq_true, if_false]
  unfold addAt
  rw [if_pos ⟨hie0, hie1, hip0, hip1⟩]

theorem daughterStep_inside (jet_pt jet_phi jet_eta : Fp) (image2D : Image) (i_part : Candidate)
    (e p : ℚ)
    (he : Fp.sub ieeeArith.toFloat (Fp.cvt ieeeArith.toFloat i_part.eta) jet_eta = Fp.fin e)
    (hp : wrapDphi ieeeArith (Fp.cvt ieeeArith.toFloat i_part.phi) jet_phi = Fp.fin p)
    (he1 : |e| ≤ 1) (hp1 : |p| ≤ 1) :
    ∃ (i j : Fin npix) (image : Image),
      (i.val : ℤ) = ⌊roundQ binary64 (roundQ binary64 (e + 1) / (9586981 / 2 ^ 30))⌋
      ∧ (j.val : ℤ) = ⌊roundQ binary64 (roundQ binary64 (p + 1) / (9586981 / 2 ^ 30))⌋
      ∧ daughterStep ieeeArith jet_pt jet_phi jet_eta image2D i_part = some image
      ∧ image i j = Fp.add ieeeArith.toFloat (image2D i j)
          (Fp.div ieeeArith.toFloat (Fp.cvt ieeeArith.toFloat i_part.pt) jet_pt)
      ∧ ∀ a b : Fin npix, (a ≠ i ∨ b ≠ j) → image a b = image2D a b := by
  have hstep := daughterStep_eq jet_pt jet_phi jet_eta image2D i_part e p he hp he1 hp1
  rw [abs_le] at he1 hp1
  obtain ⟨_, hie0, hie1⟩ := pixelIndex_fin e he1.1 he1.2
  obtain ⟨_, hip0, hip1⟩ := pixelIndex_fin p hp1.1 hp1.2
  generalize ⌊roundQ binary64 (roundQ binary64 (e + 1) / (9586981 / 2 ^ 30))⌋ = I at *
  generalize ⌊roundQ binary64 (roundQ binary64 (p + 1) / (9586981 / 2 ^ 30))⌋ = J at *
  have hIn : I.toNat < npix := by
    have := Int.toNat_of_nonneg hie0
    omega
  have hJn : J.toNat < npix := by
    have := Int.toNat_of_nonneg hip0
    omega
  refine ⟨⟨_, hIn⟩, ⟨_, hJn⟩, _, ?_, ?_, hstep, ?_, ?_⟩
  · simp only [Int.toNat_of_nonneg hie0]
  · simp only [Int.toNat_of_nonneg hip0]
  · simp only [Int.toNat_of_nonneg hie0, Int.toNat_of_nonneg hip0, and_self, if_true]
  · intro a b hab
    have hne : ¬ ((a.val : ℤ) = I ∧ (b.val : ℤ) = J) := by
      rintro ⟨ha, hb⟩
      rcases hab with hab | hab
      · apply hab
        apply Fin.ext
        simp only
        omega
      · apply hab
        apply Fin.ext
        simp only
        omega
    simp only [hne, if_false]

theorem index_floor (d : ℚ) (n K1 K2 : ℤ) (h1 : -1 ≤ d) (h2 : d ≤ 1)
    (hlo : (K1 : ℚ) / 2 ^ 20 ≤ d + 1) (hhi : d + 1 ≤ (K2 : ℚ) / 2 ^ 20)
    (hn1 : (n : ℚ) * (9586981 / 2 ^ 30) ≤ (K1 : ℚ) / 2 ^ 20)
    (hn2 : (K2 : ℚ) / 2 ^ 20 ≤ ((n : ℚ) + 1 - 1 / 2 ^ 20) * (9586981 / 2 ^ 30))
    (hn0 : 0 ≤ n) (hn3 : n < 224) :
    ⌊roundQ binary64 (roundQ binary64 (d + 1) / (9586981 / 2 ^ 30))⌋ = n := by
  have hz : (2 : ℚ) ^ (-20 : ℤ) = 1 / 2 ^ 20 := by norm_num
  have hv : quantumExp binary64 (d + 1) ≤ -20 := by
    have := quantumExp64_le (d + 1) 1 (by norm_num)
      (by rw [abs_lt]; constructor <;> norm_num <;> linarith)
    omega
  have hs1 := roundQ_ge binary64 (d + 1) K1 (-20) hv (by rw [hz]; linarith)
  have hs2 := roundQ_le binary64 (d + 1) K2 (-20) hv (by rw [hz]; linarith)
  rw [hz] at hs1 hs2
  generalize roundQ binary64 (d + 1) = s at hs1 hs2
  have hn0q : (0 : ℚ) ≤ n := by exact_mod_cast hn0
  have hn3q : (n : ℚ) < 224 := by exact_mod_cast hn3
  have hq : s / (9586981 / 2 ^ 30) = s * (2 ^ 30 / 9586981) := by
    field_simp
  have hy1 : (n : ℚ) ≤ s / (9586981 / 2 ^ 30) := by
    rw [le_div_iff₀ (by norm_num)]; linarith
  have hy2 : s / (9586981 / 2 ^ 30) ≤ (n : ℚ) + 1 - 1 / 2 ^ 20 := by
    rw [div_le_iff₀ (by norm_num)]; linarith
  have hw : quantumExp binary64 (s / (9586981 / 2 ^ 30)) ≤ -20 := by
    have := quantumExp64_le (s / (9586981 / 2 ^ 30)) 7 (by norm_num)
      (by rw [abs_lt]; constructor <;> norm_num <;> linarith)
    omega
  have hr1 := roundQ_ge binary64 (s / (9586981 / 2 ^ 30)) (n * 2 ^ 20) (-20) hw
    (by rw [hz]; push_cast; linarith)
  have hr2 := roundQ_le binary64 (s / (9586981 / 2 ^ 30)) ((n + 1) * 2 ^ 20 - 1) (-20) hw
    (by rw [hz]; push_cast; linarith)
  rw [hz] at hr1 hr2
  push_cast at hr1 hr2
  rw [Int.floor_eq_iff]
  constructor <;> linarith

theorem index_at_zero :
    ⌊roundQ binary64 (roundQ binary64 (0 + 1) / (9586981 / 2 ^ 30))⌋ = 111 :=
  index_floor 0 111 (2 ^ 20) (2 ^ 20) (by norm_num) (by norm_num) (by norm_num) (by norm_num)
    (by norm_num) (by norm_num) (by norm_num) (by norm_num)

theorem index_at_one :
    ⌊roundQ binary64 (roundQ binary64 (1 + 1) / (9586981 / 2 ^ 30))⌋ = 223 :=
  index_floor 1 223 (2 ^ 21) (2 ^ 21) (by norm_num) (by norm_num) (by norm_num) (by norm_num)
    (by norm_num) (by norm_num) (by norm_num) (by norm_num)

theorem index_at_tenth :
    ⌊roundQ binary64 (roundQ binary64 (13421773 / 2 ^ 27 + 1) / (9586981 / 2 ^ 30))⌋ = 123 :=
  index_floor (13421773 / 2 ^ 27) 123 1153024 1154048 (by norm_num) (by norm_num)
    (by norm_num) (by norm_num) (by norm_num) (by norm_num) (by norm_num) (by norm_num)

theorem roundTo_binary32_tenth (x : ℚ) (h1 : (13421773 - 1 / 2) / 2 ^ 27 < x)
    (h2 : x < (13421773 + 1 / 2) / 2 ^ 27) :
    roundTo binary32 x = Fp.fin (13421773 / 2 ^ 27) := by
  have h0 : 0 < x := lt_trans (by norm_num) h1
  have h := roundTo_eq binary32 x (-4) 13421773 (by norm_num [binary32])
    (by rw [abs_of_pos h0]; norm_num; linarith) (by rw [abs_of_pos h0]; norm_num; linarith)
    (by norm_num [binary32]; linarith) (by norm_num [binary32]; linarith)
    (by rw [maxFinite_binary32]; norm_num [binary32])
    (by rw [maxFinite_binary32]; norm_num [binary32])
  rw [h]
  norm_num [binary32]

theorem roundTo_binary64_tenth :
    roundTo binary64 (1 / 10) = Fp.fin (3602879701896397 / 2 ^ 55) := by
  have h := roundTo_eq binary64 (1 / 10) (-4) 7205759403792794 (by norm_num [binary64])
    (by rw [abs_of_pos] <;> norm_num) (by rw [abs_of_pos] <;> norm_num)
    (by norm_num [binary64]) (by norm_num [binary64])
    (by rw [maxFinite_binary64]; norm_num [binary64])
    (by rw [maxFinite_binary64]; norm_num [binary64])
  rw [h]
  norm_num [binary64]

theorem roundTo_binary32_hundred : roundTo binary32 100 = Fp.fin 100 := by
  have h := roundTo_eq binary32 100 6 13107200 (by norm_num [binary32])
    (by rw [abs_of_pos] <;> norm_num) (by rw [abs_of_pos] <;> norm_num)
    (by norm_num [binary32]) (by norm_num [binary32])
    (by rw [maxFinite_binary32]; norm_num [binary32])
    (by rw [maxFinite_binary32]; norm_num [binary32])
  rw [h]
  norm_num [binary32]

theorem roundTo_binary32_ten : roundTo binary32 10 = Fp.fin 10 := by
  have h := roundTo_eq binary32 10 3 10485760 (by norm_num [binary32])
    (by rw [abs_of_pos] <;> norm_num) (by rw [abs_of_pos] <;> norm_num)
    (by norm_num [binary32]) (by norm_num [binary32])
    (by rw [maxFinite_binary32]; norm_num [binary32])
    (by rw [maxFinite_binary32]; norm_num [binary32])
  rw [h]
  norm_num [binary32]

theorem wrapDphi_unwrapped (A : Arith) (i_phi jet_phi : Fp) (d : ℚ)
    (h : Fp.sub A.toFloat i_phi jet_phi = Fp.fin d) (h1 : -M_PI ≤ d) (h2 : d ≤ M_PI) :
    wrapDphi A i_phi jet_phi = Fp.fin d := by
  have c1 : Fp.gt (Fp.fin d) M_PI = false := by
    simp only [Fp.gt, decide_eq_false_iff_not, not_lt]; exact h2
  have c2 : Fp.lt (Fp.fin d) (-1 * M_PI) = false := by
    simp only [Fp.lt, decide_eq_false_iff_not, not_lt]; linarith
  unfold wrapDphi
  simp only [h, c1, c2, Bool.false_eq_true, if_false]

theorem scenario_deta :
    Fp.sub ieeeArith.toFloat (Fp.cvt ieeeArith.toFloat (roundTo binary64 (1 / 10))) (Fp.fin 0)
      = Fp.fin (13421773 / 2 ^ 27) := by
  rw [roundTo_binary64_tenth]
  simp only [ieeeArith, Fp.cvt]
  rw [roundTo_binary32_tenth _ (by norm_num) (by norm_num)]
  simp only [Fp.sub]
  exact roundTo_binary32_tenth _ (by norm_num) (by norm_num)

theorem scenario_dphi :
    wrapDphi ieeeArith (Fp.cvt ieeeArith.toFloat (roundTo binary64 (1 / 10))) (Fp.fin 0)
      = Fp.fin (13421773 / 2 ^ 27) :=
  wrapDphi_unwrapped ieeeArith _ _ _ scenario_deta (by norm_num [M_PI]) (by norm_num [M_PI])

theorem scenario_quotient :
    Fp.add ieeeArith.toFloat (Fp.fin 0)
        (Fp.div ieeeArith.toFloat (Fp.cvt ieeeArith.toFloat (Fp.fin 10)) (Fp.fin 100))
      = Fp.fin (13421773 / 2 ^ 27) := by
  simp only [ieeeArith, Fp.cvt, roundTo_binary32_ten, Fp.div]
  rw [if_neg (by norm_num), roundTo_binary32_tenth _ (by norm_num) (by norm_num)]
  simp only [Fp.add]
  exact roundTo_binary32_tenth _ (by norm_num) (by norm_num)

theorem daughterStep_scenario :
    daughterStep ieeeArith (Fp.fin 100) (Fp.fin 0) (Fp.fin 0) zeroImage
        { pt := Fp.fin 10, eta := roundTo binary64 (1 / 10), phi := roundTo binary64 (1 / 10) }
      = some scenarioImage := by
  have ha : |(13421773 / 2 ^ 27 : ℚ)| ≤ 1 := by
    rw [abs_le]; constructor <;> norm_num
  rw [daughterStep_eq (Fp.fin 100) (Fp.fin 0) (Fp.fin 0) zeroImage _ _ _
    scenario_deta scenario_dphi ha ha, index_at_tenth]
  congr 1
  funext a b
  unfold scenarioImage
  by_cases h : a.val = 123 ∧ b.val = 123
  · have h2 : (a.val : ℤ) = 123 ∧ (b.val : ℤ) = 123 := by
      obtain ⟨ha, hb⟩ := h
      exact ⟨by omega, by omega⟩
    rw [if_pos h, if_pos h2]
    exact scenario_quotient
  · have h2 : ¬ ((a.val : ℤ) = 123 ∧ (b.val : ℤ) = 123) := by
      rintro ⟨ha, hb⟩
      exact h ⟨by omega, by omega⟩
    rw [if_neg h, if_neg h2]
    rfl

theorem encodeImage_scenario : encodeImage ieeeArith [scenarioJet] = some scenarioImage := by
  have hs := daughterStep_scenario
  simp only [encodeImage, jetLoop, scenarioJet, daughterLoop, ieeeArith, Fp.cvt,
    roundTo_binary32_hundred, roundTo_binary32_zero] at hs ⊢
  rw [hs]
  norm_num

theorem index_near_exact (d : ℚ) (h1 : -1 ≤ d) (h2 : d ≤ 1) :
    ⌊(d + 1) / (2 / (npix : ℚ))⌋ - 1
        ≤ ⌊roundQ binary64 (roundQ binary64 (d + 1) / (9586981 / 2 ^ 30))⌋
      ∧ ⌊roundQ binary64 (roundQ binary64 (d + 1) / (9586981 / 2 ^ 30))⌋
        ≤ ⌊(d + 1) / (2 / (npix : ℚ))⌋ := by
  have hX : (d + 1) / (2 / (npix : ℚ)) = (d + 1) * 112 := by
    norm_num [npix]; ring
  have hv : quantumExp binary64 (d + 1) ≤ -51 := by
    have := quantumExp64_le (d + 1) 1 (by norm_num)
      (by rw [abs_lt]; constructor <;> norm_num <;> linarith)
    omega
  have hse := roundQ_err_le binary64 (d + 1) (-51) hv
  obtain ⟨_, hs0, hs2⟩ := sum_one_binary64 d h1 h2
  generalize roundQ binary64 (d + 1) = s at hse hs0 hs2
  have hq : s / (9586981 / 2 ^ 30) = s * (2 ^ 30 / 9586981) := by
    field_simp
  have hw : quantumExp binary64 (s / (9586981 / 2 ^ 30)) ≤ -45 := by
    have := quantumExp64_le (s / (9586981 / 2 ^ 30)) 7 (by norm_num)
      (by rw [hq, abs_lt]; constructor <;> norm_num <;> linarith)
    omega
  have hye := roundQ_err_le binary64 (s / (9586981 / 2 ^ 30)) (-45) hw
  rw [hq] at hye ⊢
  generalize roundQ binary64 (s * (2 ^ 30 / 9586981)) = y at hye
  rw [abs_le] at hse hye
  norm_num at hse hye
  have hfy : (⌊y⌋ : ℚ) ≤ y := Int.floor_le y
  have hfX : (⌊(d + 1) * 112⌋ : ℚ) ≤ (d + 1) * 112 := Int.floor_le _
  rw [hX]
  constructor
  · rw [Int.le_floor]
    push_cast
    linarith
  · by_cases c : 1 / 224 ≤ d + 1
    · rw [Int.le_floor]
      linarith
    · rw [not_le] at c
      have hy1 : y < 1 := by linarith
      have hfl : ⌊y⌋ < 1 := by
        rw [Int.floor_lt]; push_cast; exact hy1
      have hX0 : 0 ≤ ⌊(d + 1) * 112⌋ := Int.floor_nonneg.mpr (by linarith)
      omega

/-! ## Theorems: the encoding loop -/

/-- C1, amended: in the arithmetic of the program the pixel width is the `float`
9586981 / 2 ^ 30, not 2/224. For a jet whose `float` pt is finite and positive and a
constituent whose `float` pt, Δη and Δφ (after wrapping) are finite: when |Δη| ≤ 1 and |Δφ| ≤ 1
the pass over the constituent writes exactly one pixel of the grid, the pixel whose indices are
the integer parts of (Δη + 1)/pixel_width and (Δφ + 1)/pixel_width taken in `double`; each
index is floor((Δ + 1)/(2/224)) or one less; the new value of the pixel is the `float` sum of
its old value and the `float` quotient pt/jet_pt, and every other pixel is unchanged; when
|Δη| > 1 or |Δφ| > 1 every pixel is unchanged. -/
theorem C1_daughterStep_one_pixel (jet_pt jet_phi jet_eta : Fp) (image2D : Image)
    (i_part : Candidate) (q t e p : ℚ) (hjet : jet_pt = Fp.fin q) (hq : 0 < q)
    (ht : Fp.cvt ieeeArith.toFloat i_part.pt = Fp.fin t)
    (he : Fp.sub ieeeArith.toFloat (Fp.cvt ieeeArith.toFloat i_part.eta) jet_eta = Fp.fin e)
    (hp : wrapDphi ieeeArith (Fp.cvt ieeeArith.toFloat i_part.phi) jet_phi = Fp.fin p) :
    pixel_width ieeeArith = Fp.fin (9586981 / 2 ^ 30)
    ∧ ((|e| ≤ 1 ∧ |p| ≤ 1) →
      ∃ (i j : Fin npix) (image : Image),
        pixelIndex ieeeArith (Fp.fin e) = some (i.val : ℤ)
        ∧ pixelIndex ieeeArith (Fp.fin p) = some (j.val : ℤ)
        ∧ (i.val : ℤ) = ⌊roundQ binary64 (roundQ binary64 (e + 1) / (9586981 / 2 ^ 30))⌋
        ∧ (j.val : ℤ) = ⌊roundQ binary64 (roundQ binary64 (p + 1) / (9586981 / 2 ^ 30))⌋
        ∧ (⌊(e + 1) / (2 / (npix : ℚ))⌋ - 1 ≤ (i.val : ℤ)
            ∧ (i.val : ℤ) ≤ ⌊(e + 1) / (2 / (npix : ℚ))⌋)
        ∧ (⌊(p + 1) / (2 / (npix : ℚ))⌋ - 1 ≤ (j.val : ℤ)
            ∧ (j.val : ℤ) ≤ ⌊(p + 1) / (2 / (npix : ℚ))⌋)
        ∧ daughterStep ieeeArith jet_pt jet_phi jet_eta image2D i_part = some image
        ∧ image i j = Fp.add (roundTo binary32) (image2D i j) (roundTo binary32 (t / q))
        ∧ ∀ a b : Fin npix, (a ≠ i ∨ b ≠ j) → image a b = image2D a b)
    ∧ ((1 < |e| ∨ 1 < |p|) →
        daughterStep ieeeArith jet_pt jet_phi jet_eta image2D i_part = some image2D) := by
  refine ⟨pixel_width_ieee, ?_, ?_⟩
  · rintro ⟨he1, hp1⟩
    obtain ⟨i, j, image, hi, hj, hstep, hval, hrest⟩ :=
      daughterStep_inside jet_pt jet_phi jet_eta image2D i_part e p he hp he1 hp1
    rw [abs_le] at he1 hp1
    refine ⟨i, j, image, ?_, ?_, hi, hj, ?_, ?_, hstep, ?_, hrest⟩
    · rw [hi]; exact (pixelIndex_fin e he1.1 he1.2).1
    · rw [hj]; exact (pixelIndex_fin p hp1.1 hp1.2).1
    · rw [hi]; exact index_near_exact e he1.1 he1.2
    · rw [hj]; exact index_near_exact p hp1.1 hp1.2
    · rw [hval, ht, hjet]
      simp only [ieeeArith, Fp.div]
      rw [if_neg (ne_of_gt hq)]
  · intro h
    apply daughterStep_outside
    rw [he, hp, outsideImage_fin]
    rcases h with h | h
    · rcases lt_abs.mp h with h | h
      · exact Or.inl h
      · exact Or.inr (Or.inl (by linarith))
    · rcases lt_abs.mp h with h | h
      · exact Or.inr (Or.inr (Or.inl h))
      · exact Or.inr (Or.inr (Or.inr (by linarith)))

/-- C1, the scenario of the claim: for the jet (eta=0, phi=0, pt=100) and the constituent
(pt=10, eta=0.1, phi=0.1) the hypotheses hold with Δη = Δφ = 13421773 / 2 ^ 27, the `float`
nearest to 0.1; the image the encoding loop builds from the zero image has that `float` at
[123][123] and 0 at every other pixel. -/
theorem C1_daughterStep_one_pixel_witness :
    (0 : ℚ) < 100
    ∧ Fp.cvt ieeeArith.toFloat (Fp.fin 10) = Fp.fin 10
    ∧ Fp.sub ieeeArith.toFloat (Fp.cvt ieeeArith.toFloat (roundTo binary64 (1 / 10))) (Fp.fin 0)
        = Fp.fin (13421773 / 2 ^ 27)
    ∧ wrapDphi ieeeArith (Fp.cvt ieeeArith.toFloat (roundTo binary64 (1 / 10))) (Fp.fin 0)
        = Fp.fin (13421773 / 2 ^ 27)
    ∧ |(13421773 / 2 ^ 27 : ℚ)| ≤ 1
    ∧ ∃ image : Image,
        encodeImage ieeeArith
          [{ pt := Fp.fin 100, eta := Fp.fin 0, phi := Fp.fin 0,
             daughters := [{ pt := Fp.fin 10, eta := roundTo binary64 (1 / 10),
                             phi := roundTo binary64 (1 / 10) }] }] = some image
        ∧ image ⟨123, by decide⟩ ⟨123, by decide⟩ = Fp.fin (13421773 / 2 ^ 27)
        ∧ ∀ a b : Fin npix, (a.val ≠ 123 ∨ b.val ≠ 123) → image a b = Fp.fin 0 := by
  have hten : Fp.cvt ieeeArith.toFloat (Fp.fin 10) = Fp.fin 10 := roundTo_binary32_ten
  have habs : |(13421773 / 2 ^ 27 : ℚ)| ≤ 1 := by
    rw [abs_le]; constructor <;> norm_num
  refine ⟨by norm_num, hten, scenario_deta, scenario_dphi, habs, ?_⟩
  obtain ⟨i, j, image, _, _, hi, hj, _, _, hstep, hval, hrest⟩ :=
    (C1_daughterStep_one_pixel (Fp.fin 100) (Fp.fin 0) (Fp.fin 0) zeroImage
      { pt := Fp.fin 10, eta := roundTo binary64 (1 / 10), phi := roundTo binary64 (1 / 10) }
      100 10 (13421773 / 2 ^ 27) (13421773 / 2 ^ 27) rfl (by norm_num) hten
      scenario_deta scenario_dphi).2.1 ⟨habs, habs⟩
  rw [index_at_tenth] at hi hj
  have hi2 : i = ⟨123, by decide⟩ := by
    apply Fin.ext
    simp only
    omega
  have hj2 : j = ⟨123, by decide⟩ := by
    apply Fin.ext
    simp only
    omega
  subst hi2 hj2
  refine ⟨image, ?_, ?_, ?_⟩
  · simp only [encodeImage, jetLoop, daughterLoop, ieeeArith, Fp.cvt,
      roundTo_binary32_hundred, roundTo_binary32_zero] at hstep ⊢
    rw [hstep]
    norm_num
  · rw [hval]
    have h := scenario_quotient
    simp only [ieeeArith, Fp.cvt, roundTo_binary32_ten, Fp.div] at h
    rw [if_neg (by norm_num)] at h
    exact h
  · intro a b hab
    rw [hrest a b]
    · rfl
    · rcases hab with hab | hab
      · left; intro h; apply hab; rw [h]
      · right; intro h; apply hab; rw [h]

/-- C1 as stated fails for a constituent on the jet axis: for the jet (eta=0, phi=0, pt=100)
the constituent (pt=10, eta=0, phi=0) has Δη = Δφ = 0, and the pixel the claim names is
floor((0 + 1)/(2/224)) = 112 in both directions; the program divides by the `float`
pixel width, gets an index of 111, and writes pixel [111][111], leaving [112][112] at 0. The
value written is the `float` 13421773 / 2 ^ 27, not the quotient 10/100. -/
theorem C1_on_axis_pixel_fails :
    Fp.sub ieeeArith.toFloat (Fp.cvt ieeeArith.toFloat (Fp.fin 0)) (Fp.fin 0) = Fp.fin 0
    ∧ wrapDphi ieeeArith (Fp.cvt ieeeArith.toFloat (Fp.fin 0)) (Fp.fin 0) = Fp.fin 0
    ∧ |(0 : ℚ)| ≤ 1
    ∧ ⌊((0 : ℚ) + 1) / (2 / (npix : ℚ))⌋ = 112
    ∧ pixelIndex ieeeArith (Fp.fin 0) = some 111
    ∧ ∃ image : Image,
        encodeImage ieeeArith
          [{ pt := Fp.fin 100, eta := Fp.fin 0, phi := Fp.fin 0,
             daughters := [{ pt := Fp.fin 10, eta := Fp.fin 0, phi := Fp.fin 0 }] }]
          = some image
        ∧ image ⟨111, by decide⟩ ⟨111, by decide⟩ = Fp.fin (13421773 / 2 ^ 27)
        ∧ image ⟨112, by decide⟩ ⟨112, by decide⟩ = Fp.fin 0
        ∧ (13421773 / 2 ^ 27 : ℚ) ≠ 10 / 100 := by
  have hd : Fp.sub ieeeArith.toFloat (Fp.cvt ieeeArith.toFloat (Fp.fin 0)) (Fp.fin 0)
      = Fp.fin 0 := by
    simp only [ieeeArith, Fp.cvt, roundTo_binary32_zero, Fp.sub, sub_zero]
  have hw : wrapDphi ieeeArith (Fp.cvt ieeeArith.toFloat (Fp.fin 0)) (Fp.fin 0) = Fp.fin 0 :=
    wrapDphi_unwrapped ieeeArith _ _ _ hd (by norm_num [M_PI]) (by norm_num [M_PI])
  have h0 : |(0 : ℚ)| ≤ 1 := by norm_num
  have hidx : pixelIndex ieeeArith (Fp.fin 0) = some 111 := by
    rw [(pixelIndex_fin 0 (by norm_num) (by norm_num)).1, index_at_zero]
  have hstep := daughterStep_eq (Fp.fin 100) (Fp.fin 0) (Fp.fin 0) zeroImage
    { pt := Fp.fin 10, eta := Fp.fin 0, phi := Fp.fin 0 } 0 0 hd hw h0 h0
  rw [index_at_zero] at hstep
  refine ⟨hd, hw, h0, by norm_num [npix], hidx,
    (fun a b =>
      if (a.val : ℤ) = 111 ∧ (b.val : ℤ) = 111
      then Fp.add ieeeArith.toFloat (zeroImage a b)
        (Fp.div ieeeArith.toFloat (Fp.cvt ieeeArith.toFloat (Fp.fin 10)) (Fp.fin 100))
      else zeroImage a b), ?_, ?_, ?_, by norm_num⟩
  · simp only [encodeImage, jetLoop, daughterLoop, ieeeArith, Fp.cvt,
      roundTo_binary32_hundred, roundTo_binary32_zero] at hstep ⊢
    rw [hstep]
    norm_num
  · simp only [and_self, if_true, Nat.cast_ofNat]
    exact scenario_quotient
  · norm_num
    rfl

/-- C2 at the failing input: for the jet (eta=0, phi=0, pt=100) the constituent
(pt=10, eta=NaN, phi=0) has Δη = NaN and Δφ = 0; every comparison of the window test with NaN
is false, so the constituent is not skipped; the conversion `(int)` of the NaN quotient is
undefined, so no index in [0, 223] is computed, and the pass, the encoding loop and `acquire`
have no defined result. For the finite edge values Δ = 1 and Δ = −1 the indices are 223
and 0. -/
theorem C2_nan_passes_window_check :
    Fp.sub ieeeArith.toFloat (Fp.cvt ieeeArith.toFloat Fp.nan) (Fp.fin 0) = Fp.nan
    ∧ wrapDphi ieeeArith (Fp.cvt ieeeArith.toFloat (Fp.fin 0)) (Fp.fin 0) = Fp.fin 0
    ∧ outsideImage Fp.nan (Fp.fin 0) = false
    ∧ pixelIndex ieeeArith Fp.nan = none
    ∧ (¬ ∃ i : Fin npix, pixelIndex ieeeArith Fp.nan = some (i.val : ℤ))
    ∧ daughterStep ieeeArith (Fp.fin 100) (Fp.fin 0) (Fp.fin 0) zeroImage
        { pt := Fp.fin 10, eta := Fp.nan, phi := Fp.fin 0 } = none
    ∧ encodeImage ieeeArith
        [{ pt := Fp.fin 100, eta := Fp.fin 0, phi := Fp.fin 0,
           daughters := [{ pt := Fp.fin 10, eta := Fp.nan, phi := Fp.fin 0 }] }] = none
    ∧ (∀ (clock : Nat → ℤ) (s : Producer),
        acquire clock s
          [{ pt := Fp.fin 100, eta := Fp.fin 0, phi := Fp.fin 0,
             daughters := [{ pt := Fp.fin 10, eta := Fp.nan, phi := Fp.fin 0 }] }] = none)
    ∧ pixelIndex ieeeArith (Fp.fin 1) = some 223
    ∧ pixelIndex ieeeArith (Fp.fin (-1)) = some 0 := by
  have hd : Fp.sub ieeeArith.toFloat (Fp.cvt ieeeArith.toFloat Fp.nan) (Fp.fin 0) = Fp.nan :=
    rfl
  have hz : Fp.sub ieeeArith.toFloat (Fp.cvt ieeeArith.toFloat (Fp.fin 0)) (Fp.fin 0)
      = Fp.fin 0 := by
    simp only [ieeeArith, Fp.cvt, roundTo_binary32_zero, Fp.sub, sub_zero]
  have hw : wrapDphi ieeeArith (Fp.cvt ieeeArith.toFloat (Fp.fin 0)) (Fp.fin 0) = Fp.fin 0 :=
    wrapDphi_unwrapped ieeeArith _ _ _ hz (by norm_num [M_PI]) (by norm_num [M_PI])
  have hout : outsideImage Fp.nan (Fp.fin 0) = false := by
    simp [outsideImage, Fp.gt, Fp.lt]
  have hstep : daughterStep ieeeArith (Fp.fin 100) (Fp.fin 0) (Fp.fin 0) zeroImage
      { pt := Fp.fin 10, eta := Fp.nan, phi := Fp.fin 0 } = none :=
    daughterStep_nan ieeeArith _ _ _ _ _ (by rw [hd, hw]; exact hout) (Or.inl hd)
  have henc : encodeImage ieeeArith
      [{ pt := Fp.fin 100, eta := Fp.fin 0, phi := Fp.fin 0,
         daughters := [{ pt := Fp.fin 10, eta := Fp.nan, phi := Fp.fin 0 }] }] = none := by
    simp only [encodeImage, jetLoop, daughterLoop, ieeeArith, Fp.cvt,
      roundTo_binary32_hundred, roundTo_binary32_zero] at hstep ⊢
    rw [hstep]
  refine ⟨hd, hw, hout, pixelIndex_nan _, ?_, hstep, henc, ?_, ?_, ?_⟩
  · rintro ⟨i, hi⟩
    rw [pixelIndex_nan] at hi
    exact Option.noConfusion hi
  · intro clock s
    unfold acquire
    simp only [henc]
  · rw [(pixelIndex_fin 1 (by norm_num) (by norm_num)).1, index_at_one]
  · rw [(pixelIndex_fin (-1) (by norm_num) (by norm_num)).1]
    congr 1
    exact index_floor (-1) 0 0 0 (by norm_num) (by norm_num) (by norm_num) (by norm_num)
      (by norm_num) (by norm_num) (by norm_num) (by norm_num)

/-! ## Theorems: the order of the constituents -/

theorem add_exact_right_comm (x v w : Fp) :
    Fp.add exactArith.toFloat (Fp.add exactArith.toFloat x v) w
      = Fp.add exactArith.toFloat (Fp.add exactArith.toFloat x w) v := by
  cases x <;> cases v <;> cases w <;> simp [Fp.add, exactArith, add_right_comm]

theorem cvt_exact (x : Fp) : Fp.cvt exactArith.toFloat x = x := by
  cases x <;> rfl

theorem daughterStep_shape (A : Arith) (jet_pt jet_phi jet_eta : Fp) (i_part : Candidate) :
    (∀ image2D : Image, daughterStep A jet_pt jet_phi jet_eta image2D i_part = none)
    ∨ (∀ image2D : Image, daughterStep A jet_pt jet_phi jet_eta image2D i_part = some image2D)
    ∨ ∃ (i j : ℤ) (v : Fp), ∀ image2D : Image,
        daughterStep A jet_pt jet_phi jet_eta image2D i_part
          = some (fun a b =>
              if (a.val : ℤ) = i ∧ (b.val : ℤ) = j then Fp.add A.toFloat (image2D a b) v
              else image2D a b) := by
  by_cases hout : outsideImage (Fp.sub A.toFloat (Fp.cvt A.toFloat i_part.eta) jet_eta)
      (wrapDphi A (Fp.cvt A.toFloat i_part.phi) jet_phi) = true
  · right; left
    intro image2D
    exact daughterStep_outside A jet_pt jet_phi jet_eta image2D i_part hout
  · cases he : pixelIndex A (Fp.sub A.toFloat (Fp.cvt A.toFloat i_part.eta) jet_eta) with
    | none =>
      left
      intro image2D
      unfold daughterStep
      simp only [he]
      rw [if_neg hout]
    | some i =>
      cases hp : pixelIndex A (wrapDphi A (Fp.cvt A.toFloat i_part.phi) jet_phi) with
      | none =>
        left
        intro image2D
        unfold daughterStep
        simp only [he, hp]
        rw [if_neg hout]
      | some j =>
        by_cases hin : 0 ≤ i ∧ i < (npix : ℤ) ∧ 0 ≤ j ∧ j < (npix : ℤ)
        · right; right
          refine ⟨i, j, Fp.div A.toFloat (Fp.cvt A.toFloat i_part.pt) jet_pt, ?_⟩
          intro image2D
          unfold daughterStep
          simp only [he, hp]
          rw [if_neg hout]
          unfold addAt
          rw [if_pos hin]
        · left
          intro image2D
          unfold daughterStep
          simp only [he, hp]
          rw [if_neg hout]
          unfold addAt
          rw [if_neg hin]

theorem daughterStep_comm (jet_pt jet_phi jet_eta : Fp) (x y : Candidate) (image2D : Image) :
    (daughterStep exactArith jet_pt jet_phi jet_eta image2D x).bind
        (fun image => daughterStep exactArith jet_pt jet_phi jet_eta image y)
      = (daughterStep exactArith jet_pt jet_phi jet_eta image2D y).bind
        (fun image => daughterStep exactArith jet_pt jet_phi jet_eta image x) := by
  rcases daughterStep_shape exactArith jet_pt jet_phi jet_eta x with hx | hx | ⟨ix, jx, vx, hx⟩ <;>
  rcases daughterStep_shape exactArith jet_pt jet_phi jet_eta y with hy | hy | ⟨iy, jy, vy, hy⟩ <;>
  simp only [hx, hy, Option.none_bind, Option.some_bind, Option.some.injEq]
  funext a b
  by_cases h1 : (a.val : ℤ) = ix ∧ (b.val : ℤ) = jx
  · by_cases h2 : (a.val : ℤ) = iy ∧ (b.val : ℤ) = jy
    · rw [if_pos h2, if_pos h1, if_pos h1, if_pos h2]
      exact add_exact_right_comm _ _ _
    · rw [if_neg h2, if_pos h1, if_pos h1, if_neg h2]
  · by_cases h2 : (a.val : ℤ) = iy ∧ (b.val : ℤ) = jy
    · rw [if_pos h2, if_neg h1, if_neg h1, if_pos h2]
    · rw [if_neg h2, if_neg h1, if_neg h1, if_neg h2]

theorem daughterLoop_cons (A : Arith) (jet_pt jet_phi jet_eta : Fp) (x : Candidate)
    (l : List Candidate) (image2D : Image) :
    daughterLoop A jet_pt jet_phi jet_eta (x :: l) image2D
      = (daughterStep A jet_pt jet_phi jet_eta image2D x).bind
          (daughterLoop A jet_pt jet_phi jet_eta l) := by
  rw [daughterLoop]
  cases daughterStep A jet_pt jet_phi jet_eta image2D x <;> rfl

theorem daughterLoop_perm (jet_pt jet_phi jet_eta : Fp) (l1 l2 : List Candidate)
    (h : l1.Perm l2) (image2D : Image) :
    daughterLoop exactArith jet_pt jet_phi jet_eta l1 image2D
      = daughterLoop exactArith jet_pt jet_phi jet_eta l2 image2D := by
  induction h generalizing image2D with
  | nil => rfl
  | cons x _ ih =>
    rw [daughterLoop_cons, daughterLoop_cons]
    cases daughterStep exactArith jet_pt jet_phi jet_eta image2D x with
    | none => rfl
    | some image => exact ih image
  | swap x y l =>
    rw [daughterLoop_cons, daughterLoop_cons]
    have hxy := daughterStep_comm jet_pt jet_phi jet_eta x y image2D
    have e1 : ∀ (o : Option Image) (z : Candidate),
        o.bind (daughterLoop exactArith jet_pt jet_phi jet_eta (z :: l))
          = (o.bind (fun image => daughterStep exactArith jet_pt jet_phi jet_eta image z)).bind
              (daughterLoop exactArith jet_pt jet_phi jet_eta l) := by
      intro o z
      cases o with
      | none => rfl
      | some image => exact daughterLoop_cons exactArith jet_pt jet_phi jet_eta z l image
    rw [e1, e1, hxy]
  | trans _ _ ih1 ih2 => exact (ih1 image2D).trans (ih2 image2D)

/-- C9: over exact arithmetic, for a jet with pt > 0 and two constituent sequences that are
permutations of each other, the encoding loop produces the same image from every starting
image, and `acquire` accumulates the same image for the event whichever of the two orders the
jet carries. -/
theorem C9_encoding_order_independent (jet : Jet) (rest : List Jet) (l : List Candidate)
    (image2D : Image) (_hpt : Fp.gt jet.pt 0 = true) (h : jet.daughters.Perm l) :
    daughterLoop exactArith jet.pt jet.phi jet.eta jet.daughters image2D
        = daughterLoop exactArith jet.pt jet.phi jet.eta l image2D
    ∧ encodeImage exactArith (jet :: rest)
        = encodeImage exactArith ({ jet with daughters := l } :: rest) := by
  refine ⟨daughterLoop_perm _ _ _ _ _ h image2D, ?_⟩
  simp only [encodeImage, jetLoop]
  rw [daughterLoop_perm _ _ _ _ _ h zeroImage]

/-- C9 on a concrete jet: the constituents (pt=10, eta=0.1, phi=0.1) and (pt=20, eta=−0.5,
phi=0.3) taken in the two possible orders give the same image. -/
theorem C9_encoding_order_independent_witness :
    Fp.gt (Fp.fin 100) 0 = true
    ∧ List.Perm
        [({ pt := Fp.fin 10, eta := Fp.fin (1 / 10), phi := Fp.fin (1 / 10) } : Candidate),
          { pt := Fp.fin 20, eta := Fp.fin (-1 / 2), phi := Fp.fin (3 / 10) }]
        [({ pt := Fp.fin 20, eta := Fp.fin (-1 / 2), phi := Fp.fin (3 / 10) } : Candidate),
          { pt := Fp.fin 10, eta := Fp.fin (1 / 10), phi := Fp.fin (1 / 10) }]
    ∧ encodeImage exactArith
        [{ pt := Fp.fin 100, eta := Fp.fin 0, phi := Fp.fin 0,
           daughters := [{ pt := Fp.fin 10, eta := Fp.fin (1 / 10), phi := Fp.fin (1 / 10) },
                         { pt := Fp.fin 20, eta := Fp.fin (-1 / 2), phi := Fp.fin (3 / 10) }] }]
      = encodeImage exactArith
        [{ pt := Fp.fin 100, eta := Fp.fin 0, phi := Fp.fin 0,
           daughters := [{ pt := Fp.fin 20, eta := Fp.fin (-1 / 2), phi := Fp.fin (3 / 10) },
                         { pt := Fp.fin 10, eta := Fp.fin (1 / 10), phi := Fp.fin (1 / 10) }] }] :=
  ⟨by simp [Fp.gt], List.Perm.swap _ _ _,
    (C9_encoding_order_independent
      { pt := Fp.fin 100, eta := Fp.fin 0, phi := Fp.fin 0,
        daughters := [{ pt := Fp.fin 10, eta := Fp.fin (1 / 10), phi := Fp.fin (1 / 10) },
                      { pt := Fp.fin 20, eta := Fp.fin (-1 / 2), phi := Fp.fin (3 / 10) }] }
      []
      [{ pt := Fp.fin 20, eta := Fp.fin (-1 / 2), phi := Fp.fin (3 / 10) },
        { pt := Fp.fin 10, eta := Fp.fin (1 / 10), phi := Fp.fin (1 / 10) }]
      zeroImage (by simp [Fp.gt]) (List.Perm.swap _ _ _)).2⟩

/-! ## Theorems: the wrapped azimuthal difference -/

theorem M_PI_bounds : (13176794 / 2 ^ 22 : ℚ) < M_PI ∧ M_PI < 13176795 / 2 ^ 22 := by
  constructor <;> norm_num [M_PI]

theorem M_PI_is_double :
    roundTo binary64 (314159265358979323846 / 10 ^ 20) = Fp.fin M_PI := by
  have h := roundTo_eq binary64 (314159265358979323846 / 10 ^ 20) 1 7074237752028440
    (by norm_num [binary64])
    (by rw [abs_of_pos] <;> norm_num) (by rw [abs_of_pos] <;> norm_num)
    (by norm_num [binary64]) (by norm_num [binary64])
    (by rw [maxFinite_binary64]; norm_num [binary64])
    (by rw [maxFinite_binary64]; norm_num [binary64])
  rw [h]
  norm_num [binary64, M_PI]

theorem two_zpow_neg22 : (2 : ℚ) ^ (-22 : ℤ) = 1 / 2 ^ 22 := by norm_num

theorem roundQ_binary32_grid (x : ℚ) :
    (-2 ≤ roundQ binary32 x ∧ roundQ binary32 x ≤ 2)
      ∨ ∃ N : ℤ, roundQ binary32 x = (N : ℚ) / 2 ^ 22 := by
  by_cases h : |x| < 2
  · left
    have hv : quantumExp binary32 x ≤ 1 := by
      have := quantumExp32_le x 0 (by norm_num) (by norm_num; exact h)
      omega
    rw [abs_lt] at h
    have h1 := roundQ_ge binary32 x (-1) 1 hv (by norm_num; linarith)
    have h2 := roundQ_le binary32 x 1 1 hv (by norm_num; linarith)
    norm_num at h1 h2
    exact ⟨h1, h2⟩
  · right
    have hv : -22 ≤ quantumExp binary32 x := by
      have := le_quantumExp32 x 1 (by norm_num; exact not_lt.mp h)
      omega
    obtain ⟨N, hN⟩ := roundQ_grid binary32 x (-22) hv
    refine ⟨N, ?_⟩
    rw [hN, two_zpow_neg22]
    ring

theorem float_above_M_PI (x : ℚ) (h : M_PI < roundQ binary32 x) :
    13176795 / 2 ^ 22 ≤ roundQ binary32 x := by
  obtain ⟨hm1, _⟩ := M_PI_bounds
  rcases roundQ_binary32_grid x with ⟨_, h2⟩ | ⟨N, hN⟩
  · have : (2 : ℚ) < M_PI := by norm_num [M_PI]
    linarith
  · rw [hN] at h ⊢
    have h1 : ((13176794 : ℤ) : ℚ) < (N : ℚ) := by
      have h3 : (13176794 / 2 ^ 22 : ℚ) < (N : ℚ) / 2 ^ 22 := lt_trans hm1 h
      rw [div_lt_div_iff_of_pos_right (by norm_num)] at h3
      exact_mod_cast h3
    have h2 : (13176794 : ℤ) < N := by exact_mod_cast h1
    have h3 : ((13176795 : ℤ) : ℚ) ≤ (N : ℚ) := by exact_mod_cast (by omega : 13176795 ≤ N)
    rw [div_le_div_iff_of_pos_right (by norm_num)]
    exact_mod_cast h3

theorem float_below_M_PI (x : ℚ) (h : roundQ binary32 x ≤ M_PI) :
    roundQ binary32 x ≤ 13176794 / 2 ^ 22 := by
  obtain ⟨_, hm2⟩ := M_PI_bounds
  rcases roundQ_binary32_grid x with ⟨_, h2⟩ | ⟨N, hN⟩
  · have : (2 : ℚ) ≤ 13176794 / 2 ^ 22 := by norm_num
    linarith
  · rw [hN] at h ⊢
    have h1 : (N : ℚ) < ((13176795 : ℤ) : ℚ) := by
      have h3 : (N : ℚ) / 2 ^ 22 < (13176795 / 2 ^ 22 : ℚ) := lt_of_le_of_lt h hm2
      rw [div_lt_div_iff_of_pos_right (by norm_num)] at h3
      exact_mod_cast h3
    have h2 : N < (13176795 : ℤ) := by exact_mod_cast h1
    have h3 : (N : ℚ) ≤ ((13176794 : ℤ) : ℚ) := by exact_mod_cast (by omega : N ≤ 13176794)
    rw [div_le_div_iff_of_pos_right (by norm_num)]
    exact_mod_cast h3

theorem float_below_neg_M_PI (x : ℚ) (h : roundQ binary32 x < -M_PI) :
    roundQ binary32 x ≤ -(13176795 / 2 ^ 22) := by
  obtain ⟨hm1, _⟩ := M_PI_bounds
  rcases roundQ_binary32_grid x with ⟨h2, _⟩ | ⟨N, hN⟩
  · have : (2 : ℚ) < M_PI := by norm_num [M_PI]
    linarith
  · rw [hN] at h ⊢
    have h1 : (N : ℚ) < ((-13176794 : ℤ) : ℚ) := by
      have h3 : (N : ℚ) / 2 ^ 22 < (-13176794 / 2 ^ 22 : ℚ) := by
        have : (-13176794 / 2 ^ 22 : ℚ) = -(13176794 / 2 ^ 22) := by ring
        rw [this]; linarith
      rw [div_lt_div_iff_of_pos_right (by norm_num)] at h3
      exact_mod_cast h3
    have h2 : N < (-13176794 : ℤ) := by exact_mod_cast h1
    have h3 : (N : ℚ) ≤ ((-13176795 : ℤ) : ℚ) := by exact_mod_cast (by omega : N ≤ -13176795)
    have h4 : (N : ℚ) / 2 ^ 22 ≤ (-13176795 : ℚ) / 2 ^ 22 := by
      rw [div_le_div_iff_of_pos_right (by norm_num)]
      exact_mod_cast h3
    have : (-13176795 / 2 ^ 22 : ℚ) = -(13176795 / 2 ^ 22) := by ring
    linarith

theorem float_above_neg_M_PI (x : ℚ) (h : -M_PI ≤ roundQ binary32 x) :
    -(13176794 / 2 ^ 22) ≤ roundQ binary32 x := by
  obtain ⟨_, hm2⟩ := M_PI_bounds
  rcases roundQ_binary32_grid x with ⟨h2, _⟩ | ⟨N, hN⟩
  · have : (2 : ℚ) ≤ 13176794 / 2 ^ 22 := by norm_num
    linarith
  · rw [hN] at h ⊢
    have h1 : ((-13176795 : ℤ) : ℚ) < (N : ℚ) := by
      have h3 : (-13176795 / 2 ^ 22 : ℚ) < (N : ℚ) / 2 ^ 22 := by
        have : (-13176795 / 2 ^ 22 : ℚ) = -(13176795 / 2 ^ 22) := by ring
        rw [this]; linarith
      rw [div_lt_div_iff_of_pos_right (by norm_num)] at h3
      exact_mod_cast h3
    have h2 : (-13176795 : ℤ) < N := by exact_mod_cast h1
    have h3 : ((-13176794 : ℤ) : ℚ) ≤ (N : ℚ) := by exact_mod_cast (by omega : -13176794 ≤ N)
    have h4 : (-13176794 : ℚ) / 2 ^ 22 ≤ (N : ℚ) / 2 ^ 22 := by
      rw [div_le_div_iff_of_pos_right (by norm_num)]
      exact_mod_cast h3
    have : (-13176794 / 2 ^ 22 : ℚ) = -(13176794 / 2 ^ 22) := by ring
    linarith

theorem float_of_phi (x : ℚ) (h1 : -(31415926536 / 10 ^ 10) ≤ x)
    (h2 : x ≤ 31415926536 / 10 ^ 10) :
    roundTo binary32 x = Fp.fin (roundQ binary32 x)
      ∧ -(13176795 / 2 ^ 22) ≤ roundQ binary32 x ∧ roundQ binary32 x ≤ 13176795 / 2 ^ 22
      ∧ |roundQ binary32 x - x| ≤ 1 / 2 ^ 23 := by
  have hv : quantumExp binary32 x ≤ -22 := by
    have := quantumExp32_le x 1 (by norm_num)
      (by rw [abs_lt]; constructor <;> norm_num <;> linarith)
    omega
  obtain ⟨hr, hlo, hhi⟩ := roundTo_between binary32 x (-13176795) 13176795 (-22) hv
    (by rw [two_zpow_neg22]; norm_num; linarith) (by rw [two_zpow_neg22]; norm_num; linarith)
    (by rw [maxFinite_binary32, two_zpow_neg22]; norm_num)
    (by rw [maxFinite_binary32, two_zpow_neg22]; norm_num)
  have he := roundQ_err_le binary32 x (-22) hv
  rw [two_zpow_neg22] at hlo hhi he
  refine ⟨hr, by linarith, by linarith, ?_⟩
  calc |roundQ binary32 x - x| ≤ 1 / 2 ^ 22 / 2 := he
    _ = 1 / 2 ^ 23 := by norm_num

theorem float_of_difference (x : ℚ) (h1 : -(13176795 / 2 ^ 21) ≤ x)
    (h2 : x ≤ 13176795 / 2 ^ 21) :
    roundTo binary32 x = Fp.fin (roundQ binary32 x)
      ∧ -(13176795 / 2 ^ 21) ≤ roundQ binary32 x ∧ roundQ binary32 x ≤ 13176795 / 2 ^ 21
      ∧ |roundQ binary32 x - x| ≤ 1 / 2 ^ 22 := by
  have hz : (2 : ℚ) ^ (-21 : ℤ) = 1 / 2 ^ 21 := by norm_num
  have hv : quantumExp binary32 x ≤ -21 := by
    have := quantumExp32_le x 2 (by norm_num)
      (by rw [abs_lt]; constructor <;> norm_num <;> linarith)
    omega
  obtain ⟨hr, hlo, hhi⟩ := roundTo_between binary32 x (-13176795) 13176795 (-21) hv
    (by rw [hz]; norm_num; linarith) (by rw [hz]; norm_num; linarith)
    (by rw [maxFinite_binary32, hz]; norm_num)
    (by rw [maxFinite_binary32, hz]; norm_num)
  have he := roundQ_err_le binary32 x (-21) hv
  rw [hz] at hlo hhi he
  refine ⟨hr, by linarith, by linarith, ?_⟩
  calc |roundQ binary32 x - x| ≤ 1 / 2 ^ 21 / 2 := he
    _ = 1 / 2 ^ 22 := by norm_num

theorem double_of_wrap (x : ℚ) (h1 : -4 < x) (h2 : x < 4) :
    roundTo binary64 x = Fp.fin (roundQ binary64 x) ∧ |roundQ binary64 x - x| ≤ 1 / 2 ^ 52 := by
  have hz : (2 : ℚ) ^ (-51 : ℤ) = 1 / 2 ^ 51 := by norm_num
  have hv : quantumExp binary64 x ≤ -51 := by
    have := quantumExp64_le x 1 (by norm_num)
      (by rw [abs_lt]; constructor <;> norm_num <;> linarith)
    omega
  obtain ⟨hr, _, _⟩ := roundTo_between binary64 x (-(2 ^ 53)) (2 ^ 53) (-51) hv
    (by rw [hz]; norm_num; linarith) (by rw [hz]; norm_num; linarith)
    (by rw [maxFinite_binary64, hz]; norm_num)
    (by rw [maxFinite_binary64, hz]; norm_num)
  have he := roundQ_err_le binary64 x (-51) hv
  rw [hz] at he
  refine ⟨hr, ?_⟩
  calc |roundQ binary64 x - x| ≤ 1 / 2 ^ 51 / 2 := he
    _ = 1 / 2 ^ 52 := by norm_num

theorem float_of_wrap (t : ℚ) (h1 : -(31415926 / 10 ^ 7) ≤ t) (h2 : t ≤ 31415926 / 10 ^ 7) :
    roundTo binary32 t = Fp.fin (roundQ binary32 t)
      ∧ -(13176794 / 2 ^ 22) ≤ roundQ binary32 t ∧ roundQ binary32 t ≤ 13176794 / 2 ^ 22
      ∧ |roundQ binary32 t - t| ≤ 1 / 2 ^ 23 := by
  obtain ⟨hr, _, _, he⟩ := float_of_phi t (by linarith) (by linarith)
  have hv : quantumExp binary32 t ≤ -22 := by
    have := quantumExp32_le t 1 (by norm_num)
      (by rw [abs_lt]; constructor <;> norm_num <;> linarith)
    omega
  refine ⟨hr, ?_, ?_, he⟩
  · by_cases c : -(13176794 / 2 ^ 22) ≤ t
    · have := roundQ_ge binary32 t (-13176794) (-22) hv
        (by rw [two_zpow_neg22]; norm_num; linarith)
      rw [two_zpow_neg22] at this
      linarith
    · rw [not_le] at c
      have hu : quantumExp binary32 t = -22 := by
        have := quantumExp_eq binary32 t 1 (by norm_num [binary32])
          (by rw [abs_of_neg (by linarith)]; norm_num; linarith)
          (by rw [abs_of_neg (by linarith)]; norm_num; linarith)
        rw [this]
        norm_num [binary32]
      have := roundQ_ge_half binary32 t (-22) (-13176794) hu
        (by rw [two_zpow_neg22]; norm_num; linarith)
      rw [two_zpow_neg22] at this
      linarith
  · by_cases c : t ≤ 13176794 / 2 ^ 22
    · have := roundQ_le binary32 t 13176794 (-22) hv
        (by rw [two_zpow_neg22]; norm_num; linarith)
      rw [two_zpow_neg22] at this
      linarith
    · rw [not_le] at c
      have hu : quantumExp binary32 t = -22 := by
        have := quantumExp_eq binary32 t 1 (by norm_num [binary32])
          (by rw [abs_of_pos (by linarith)]; norm_num; linarith)
          (by rw [abs_of_pos (by linarith)]; norm_num; linarith)
        rw [this]
        norm_num [binary32]
      have := roundQ_le_half binary32 t (-22) 13176794 hu
        (by rw [two_zpow_neg22]; norm_num; linarith)
      rw [two_zpow_neg22] at this
      linarith

theorem wrap_down (d0 : ℚ) (h1 : 13176795 / 2 ^ 22 ≤ d0) (h2 : d0 ≤ 13176795 / 2 ^ 21) :
    ∃ d1 : ℚ,
      Fp.cvt (roundTo binary32) (Fp.sub (roundTo binary64) (Fp.fin d0) (Fp.fin (2 * M_PI)))
          = Fp.fin d1
        ∧ -(13176794 / 2 ^ 22) ≤ d1 ∧ d1 ≤ 13176794 / 2 ^ 22
        ∧ |d1 - (d0 - 2 * M_PI)| ≤ 1 / 2 ^ 23 + 1 / 2 ^ 52 := by
  have hx1 : -(314159257 / 10 ^ 8) ≤ d0 - 2 * M_PI := by norm_num [M_PI]; linarith
  have hx2 : d0 - 2 * M_PI ≤ 1 / 10 ^ 6 := by norm_num [M_PI]; linarith
  obtain ⟨ht, hte⟩ := double_of_wrap (d0 - 2 * M_PI) (by linarith) (by linarith)
  rw [abs_le] at hte
  obtain ⟨hr, hlo, hhi, he⟩ := float_of_wrap (roundQ binary64 (d0 - 2 * M_PI))
    (by norm_num at hte ⊢; linarith) (by norm_num at hte ⊢; linarith)
  refine ⟨roundQ binary32 (roundQ binary64 (d0 - 2 * M_PI)), ?_, hlo, hhi, ?_⟩
  · simp only [Fp.sub, ht, Fp.cvt, hr]
  · rw [abs_le] at he ⊢
    constructor <;> linarith

theorem wrap_up (d0 : ℚ) (h1 : -(13176795 / 2 ^ 21) ≤ d0) (h2 : d0 ≤ -(13176795 / 2 ^ 22)) :
    ∃ d1 : ℚ,
      Fp.cvt (roundTo binary32) (Fp.add (roundTo binary64) (Fp.fin d0) (Fp.fin (2 * M_PI)))
          = Fp.fin d1
        ∧ -(13176794 / 2 ^ 22) ≤ d1 ∧ d1 ≤ 13176794 / 2 ^ 22
        ∧ |d1 - (d0 + 2 * M_PI)| ≤ 1 / 2 ^ 23 + 1 / 2 ^ 52 := by
  have hx1 : -(1 / 10 ^ 6) ≤ d0 + 2 * M_PI := by norm_num [M_PI]; linarith
  have hx2 : d0 + 2 * M_PI ≤ 314159257 / 10 ^ 8 := by norm_num [M_PI]; linarith
  obtain ⟨ht, hte⟩ := double_of_wrap (d0 + 2 * M_PI) (by linarith) (by linarith)
  rw [abs_le] at hte
  obtain ⟨hr, hlo, hhi, he⟩ := float_of_wrap (roundQ binary64 (d0 + 2 * M_PI))
    (by norm_num at hte ⊢; linarith) (by norm_num at hte ⊢; linarith)
  refine ⟨roundQ binary32 (roundQ binary64 (d0 + 2 * M_PI)), ?_, hlo, hhi, ?_⟩
  · simp only [Fp.add, ht, Fp.cvt, hr]
  · rw [abs_le] at he ⊢
    constructor <;> linarith

theorem wrapDphi_down (A : Arith) (i_phi jet_phi : Fp) (d0 d1 : ℚ)
    (h : Fp.sub A.toFloat i_phi jet_phi = Fp.fin d0) (c : M_PI < d0)
    (hw : Fp.cvt A.toFloat (Fp.sub A.toDouble (Fp.fin d0) (Fp.fin (2 * M_PI))) = Fp.fin d1)
    (h2 : -M_PI ≤ d1) : wrapDphi A i_phi jet_phi = Fp.fin d1 := by
  have c1 : Fp.gt (Fp.fin d0) M_PI = true := by
    simp only [Fp.gt, decide_eq_true_eq]; exact c
  have c2 : Fp.lt (Fp.fin d1) (-1 * M_PI) = false := by
    simp only [Fp.lt, decide_eq_false_iff_not, not_lt]; linarith
  unfold wrapDphi
  simp only [h, c1, if_true, hw, c2, Bool.false_eq_true, if_false]

theorem wrapDphi_up (A : Arith) (i_phi jet_phi : Fp) (d0 d1 : ℚ)
    (h : Fp.sub A.toFloat i_phi jet_phi = Fp.fin d0) (c : d0 < -M_PI)
    (hw : Fp.cvt A.toFloat (Fp.add A.toDouble (Fp.fin d0) (Fp.fin (2 * M_PI))) = Fp.fin d1) :
    wrapDphi A i_phi jet_phi = Fp.fin d1 := by
  have hpos : 0 < M_PI := by norm_num [M_PI]
  have c1 : Fp.gt (Fp.fin d0) M_PI = false := by
    simp only [Fp.gt, decide_eq_false_iff_not, not_lt]; linarith
  have c2 : Fp.lt (Fp.fin d0) (-1 * M_PI) = true := by
    simp only [Fp.lt, decide_eq_true_eq]; linarith
  unfold wrapDphi
  simp only [h, c1, Bool.false_eq_true, if_false, c2, if_true, hw]

theorem wrapDphi_rational (phi_p phi_j : ℚ)
    (hp1 : -(31415926536 / 10 ^ 10) ≤ phi_p) (hp2 : phi_p ≤ 31415926536 / 10 ^ 10)
    (hj1 : -(31415926536 / 10 ^ 10) ≤ phi_j) (hj2 : phi_j ≤ 31415926536 / 10 ^ 10) :
    ∃ d : ℚ,
      wrapDphi ieeeArith (Fp.cvt ieeeArith.toFloat (Fp.fin phi_p))
          (Fp.cvt ieeeArith.toFloat (Fp.fin phi_j)) = Fp.fin d
        ∧ -(13176794 / 2 ^ 22) ≤ d ∧ d ≤ 13176794 / 2 ^ 22
        ∧ (|d - (phi_p - phi_j)| ≤ 1 / 2 ^ 20
          ∨ |d - (phi_p - phi_j + 2 * M_PI)| ≤ 1 / 2 ^ 20
          ∨ |d - (phi_p - phi_j - 2 * M_PI)| ≤ 1 / 2 ^ 20) := by
  obtain ⟨ha, ha1, ha2, hae⟩ := float_of_phi phi_p hp1 hp2
  obtain ⟨hb, hb1, hb2, hbe⟩ := float_of_phi phi_j hj1 hj2
  generalize roundQ binary32 phi_p = a at ha ha1 ha2 hae
  generalize roundQ binary32 phi_j = b at hb hb1 hb2 hbe
  obtain ⟨hd, hd1, hd2, hde⟩ := float_of_difference (a - b) (by linarith) (by linarith)
  have hsub : Fp.sub ieeeArith.toFloat (Fp.cvt ieeeArith.toFloat (Fp.fin phi_p))
      (Fp.cvt ieeeArith.toFloat (Fp.fin phi_j)) = Fp.fin (roundQ binary32 (a - b)) := by
    simp only [ieeeArith, Fp.cvt, ha, hb, Fp.sub, hd]
  rw [abs_le] at hae hbe hde
  by_cases c1 : M_PI < roundQ binary32 (a - b)
  · have h0 := float_above_M_PI (a - b) c1
    obtain ⟨d1, hw, hlo, hhi, he⟩ := wrap_down _ h0 hd2
    refine ⟨d1, ?_, hlo, hhi, Or.inr (Or.inr ?_)⟩
    · exact wrapDphi_down ieeeArith _ _ _ _ hsub c1 hw (by linarith [M_PI_bounds.1])
    · rw [abs_le] at he ⊢
      constructor <;> norm_num at he ⊢ <;> linarith
  · by_cases c2 : roundQ binary32 (a - b) < -M_PI
    · have h0 := float_below_neg_M_PI (a - b) c2
      obtain ⟨d1, hw, hlo, hhi, he⟩ := wrap_up _ hd1 h0
      refine ⟨d1, ?_, hlo, hhi, Or.inr (Or.inl ?_)⟩
      · exact wrapDphi_up ieeeArith _ _ _ _ hsub c2 hw
      · rw [abs_le] at he ⊢
        constructor <;> norm_num at he ⊢ <;> linarith
    · rw [not_lt] at c1 c2
      refine ⟨roundQ binary32 (a - b), ?_, float_above_neg_M_PI _ c2, float_below_M_PI _ c1,
        Or.inl ?_⟩
      · exact wrapDphi_unwrapped ieeeArith _ _ _ hsub c2 c1
      · rw [abs_le]
        constructor <;> norm_num at hae hbe hde ⊢ <;> linarith

theorem M_PI_near_pi : |((M_PI : ℚ) : ℝ) - Real.pi| ≤ 1 / 10 ^ 15 := by
  have h1 := Real.pi_gt_d20
  have h2 := Real.pi_lt_d20
  have hM : ((M_PI : ℚ) : ℝ) = 884279719003555 / 281474976710656 := by
    unfold M_PI; push_cast; rfl
  rw [hM, abs_le]
  norm_num at h1 h2 ⊢
  constructor <;> linarith

theorem phi_rational_bounds (phi : ℚ)
    (h : -Real.pi < (phi : ℝ) ∧ (phi : ℝ) ≤ Real.pi) :
    -(31415926536 / 10 ^ 10) ≤ phi ∧ phi ≤ 31415926536 / 10 ^ 10 := by
  have h2 := Real.pi_lt_d20
  norm_num at h2
  constructor
  · apply (Rat.cast_le (K := ℝ)).mp
    push_cast
    norm_num
    linarith [h.1]
  · apply (Rat.cast_le (K := ℝ)).mp
    push_cast
    norm_num
    linarith [h.2]

/-- C6, amended: for every particle phi and jet phi in (−π, π], the Δφ that `acquire` uses is
a finite `float` of magnitude at most 13176794 / 2 ^ 22 (the largest `float` below π), so it
lies in (−π, π], and it differs from particle.phi − jet.phi, from particle.phi − jet.phi + 2π
or from particle.phi − jet.phi − 2π by at most 10⁻⁶, the rounding of the four `float`
conversions and of the `double` wrap. -/
theorem C6_wrapDphi_within_rounding (phi_p phi_j : ℚ)
    (hp : -Real.pi < (phi_p : ℝ) ∧ (phi_p : ℝ) ≤ Real.pi)
    (hj : -Real.pi < (phi_j : ℝ) ∧ (phi_j : ℝ) ≤ Real.pi) :
    ∃ d : ℚ,
      wrapDphi ieeeArith (Fp.cvt ieeeArith.toFloat (Fp.fin phi_p))
          (Fp.cvt ieeeArith.toFloat (Fp.fin phi_j)) = Fp.fin d
      ∧ (-Real.pi < (d : ℝ) ∧ (d : ℝ) ≤ Real.pi)
      ∧ |d| ≤ 13176794 / 2 ^ 22
      ∧ (|(d : ℝ) - ((phi_p : ℝ) - (phi_j : ℝ))| ≤ 1 / 10 ^ 6
        ∨ |(d : ℝ) - ((phi_p : ℝ) - (phi_j : ℝ) + 2 * Real.pi)| ≤ 1 / 10 ^ 6
        ∨ |(d : ℝ) - ((phi_p : ℝ) - (phi_j : ℝ) - 2 * Real.pi)| ≤ 1 / 10 ^ 6) := by
  obtain ⟨hp1, hp2⟩ := phi_rational_bounds phi_p hp
  obtain ⟨hj1, hj2⟩ := phi_rational_bounds phi_j hj
  obtain ⟨d, hw, hlo, hhi, hdiff⟩ := wrapDphi_rational phi_p phi_j hp1 hp2 hj1 hj2
  have hpi := Real.pi_gt_d20
  norm_num at hpi
  have hM := abs_le.mp M_PI_near_pi
  have hloR := (Rat.cast_le (K := ℝ)).mpr hlo
  have hhiR := (Rat.cast_le (K := ℝ)).mpr hhi
  push_cast at hloR hhiR
  refine ⟨d, hw, ⟨?_, ?_⟩, abs_le.mpr ⟨hlo, hhi⟩, ?_⟩
  · norm_num at hloR; linarith
  · norm_num at hhiR; linarith
  · rcases hdiff with h | h | h
    · left
      have hR := (Rat.cast_le (K := ℝ)).mpr h
      rw [Rat.cast_abs] at hR
      push_cast at hR
      rw [abs_le] at hR ⊢
      constructor <;> norm_num at hR ⊢ <;> linarith
    · right; left
      have hR := (Rat.cast_le (K := ℝ)).mpr h
      rw [Rat.cast_abs] at hR
      push_cast at hR
      rw [abs_le] at hR ⊢
      constructor <;> norm_num at hR hM ⊢ <;> linarith
    · right; right
      have hR := (Rat.cast_le (K := ℝ)).mpr h
      rw [Rat.cast_abs] at hR
      push_cast at hR
      rw [abs_le] at hR ⊢
      constructor <;> norm_num at hR hM ⊢ <;> linarith

/-- C6, the scenario of the claim: particle phi = 3.13159265 (π − 0.01) and jet phi =
−3.13159265 (−π + 0.01) are in (−π, π]; the theorem applies, and the Δφ of `acquire` is within
10⁻⁵ of −0.02, a value of magnitude 0.02 and not one near 2π. -/
theorem C6_wrapDphi_within_rounding_witness :
    (-Real.pi < ((313159265 / 10 ^ 8 : ℚ) : ℝ) ∧ ((313159265 / 10 ^ 8 : ℚ) : ℝ) ≤ Real.pi)
    ∧ (-Real.pi < ((-(313159265 / 10 ^ 8) : ℚ) : ℝ)
        ∧ ((-(313159265 / 10 ^ 8) : ℚ) : ℝ) ≤ Real.pi)
    ∧ ∃ d : ℚ,
        wrapDphi ieeeArith (Fp.cvt ieeeArith.toFloat (Fp.fin (313159265 / 10 ^ 8)))
            (Fp.cvt ieeeArith.toFloat (Fp.fin (-(313159265 / 10 ^ 8)))) = Fp.fin d
        ∧ (-Real.pi < (d : ℝ) ∧ (d : ℝ) ≤ Real.pi)
        ∧ |(d : ℝ) + 2 / 100| ≤ 1 / 10 ^ 5 := by
  have h1 := Real.pi_gt_d20
  have h2 := Real.pi_lt_d20
  norm_num at h1 h2
  have hp : -Real.pi < ((313159265 / 10 ^ 8 : ℚ) : ℝ)
      ∧ ((313159265 / 10 ^ 8 : ℚ) : ℝ) ≤ Real.pi := by
    push_cast
    constructor <;> norm_num <;> linarith
  have hj : -Real.pi < ((-(313159265 / 10 ^ 8) : ℚ) : ℝ)
      ∧ ((-(313159265 / 10 ^ 8) : ℚ) : ℝ) ≤ Real.pi := by
    push_cast
    constructor <;> norm_num <;> linarith
  obtain ⟨d, hw, hin, habs, hdiff⟩ :=
    C6_wrapDphi_within_rounding (313159265 / 10 ^ 8) (-(313159265 / 10 ^ 8)) hp hj
  refine ⟨hp, hj, d, hw, hin, ?_⟩
  have hR := (Rat.cast_le (K := ℝ)).mpr habs
  rw [Rat.cast_abs] at hR
  push_cast at hR
  rw [abs_le] at hR
  push_cast at hdiff
  rcases hdiff with h | h | h
  · rw [abs_le] at h
    norm_num at h hR
    linarith
  · rw [abs_le] at h
    norm_num at h hR
    linarith
  · rw [abs_le] at h ⊢
    constructor <;> norm_num at h ⊢ <;> linarith

theorem roundTo_binary32_three : roundTo binary32 3 = Fp.fin 3 := by
  have h := roundTo_eq binary32 3 1 12582912 (by norm_num [binary32])
    (by rw [abs_of_pos] <;> norm_num) (by rw [abs_of_pos] <;> norm_num)
    (by norm_num [binary32]) (by norm_num [binary32])
    (by rw [maxFinite_binary32]; norm_num [binary32])
    (by rw [maxFinite_binary32]; norm_num [binary32])
  rw [h]
  norm_num [binary32]

theorem roundTo_binary32_neg_three : roundTo binary32 (-3) = Fp.fin (-3) := by
  have h := roundTo_eq binary32 (-3) 1 (-12582912) (by norm_num [binary32])
    (by rw [abs_of_neg] <;> norm_num) (by rw [abs_of_neg] <;> norm_num)
    (by norm_num [binary32]) (by norm_num [binary32])
    (by rw [maxFinite_binary32]; norm_num [binary32])
    (by rw [maxFinite_binary32]; norm_num [binary32])
  rw [h]
  norm_num [binary32]

theorem roundTo_binary32_six : roundTo binary32 6 = Fp.fin 6 := by
  have h := roundTo_eq binary32 6 2 12582912 (by norm_num [binary32])
    (by rw [abs_of_pos] <;> norm_num) (by rw [abs_of_pos] <;> norm_num)
    (by norm_num [binary32]) (by norm_num [binary32])
    (by rw [maxFinite_binary32]; norm_num [binary32])
    (by rw [maxFinite_binary32]; norm_num [binary32])
  rw [h]
  norm_num [binary32]

theorem roundTo_binary64_six_wrapped :
    roundTo binary64 (6 - 2 * M_PI) = Fp.fin (-39854788871587 / 2 ^ 47) := by
  have hx : 6 - 2 * M_PI = -39854788871587 / 2 ^ 47 := by norm_num [M_PI]
  rw [hx]
  have h := roundTo_eq binary64 (-39854788871587 / 2 ^ 47) (-2) (-5101412975563136)
    (by norm_num [binary64])
    (by rw [abs_of_neg] <;> norm_num) (by rw [abs_of_neg] <;> norm_num)
    (by norm_num [binary64]) (by norm_num [binary64])
    (by rw [maxFinite_binary64]; norm_num [binary64])
    (by rw [maxFinite_binary64]; norm_num [binary64])
  rw [h]
  norm_num [binary64]

theorem roundTo_binary32_six_wrapped :
    roundTo binary32 (-39854788871587 / 2 ^ 47) = Fp.fin (-9502122 / 2 ^ 25) := by
  have h := roundTo_eq binary32 (-39854788871587 / 2 ^ 47) (-2) (-9502122)
    (by norm_num [binary32])
    (by rw [abs_of_neg] <;> norm_num) (by rw [abs_of_neg] <;> norm_num)
    (by norm_num [binary32]) (by norm_num [binary32])
    (by rw [maxFinite_binary32]; norm_num [binary32])
    (by rw [maxFinite_binary32]; norm_num [binary32])
  rw [h]
  norm_num [binary32]

/-- C6 as stated fails: particle phi = 3 and jet phi = −3 are in (−π, π] and are `float`s, the
difference 6 is above π and is wrapped once, and the Δφ of `acquire` is the `float`
−9502122 / 2 ^ 25; it differs from particle.phi − jet.phi = 6 by none of 0, +2π and −2π (nor by
twice the constant `M_PI` of the program): the wrapped value is rounded to `float`. -/
theorem C6_wrapped_value_is_rounded :
    (-Real.pi < ((3 : ℚ) : ℝ) ∧ ((3 : ℚ) : ℝ) ≤ Real.pi)
    ∧ (-Real.pi < ((-3 : ℚ) : ℝ) ∧ ((-3 : ℚ) : ℝ) ≤ Real.pi)
    ∧ wrapDphi ieeeArith (Fp.cvt ieeeArith.toFloat (Fp.fin 3))
        (Fp.cvt ieeeArith.toFloat (Fp.fin (-3))) = Fp.fin (-9502122 / 2 ^ 25)
    ∧ ((-9502122 / 2 ^ 25 : ℚ) : ℝ) ≠ ((3 : ℚ) : ℝ) - ((-3 : ℚ) : ℝ)
    ∧ ((-9502122 / 2 ^ 25 : ℚ) : ℝ) ≠ ((3 : ℚ) : ℝ) - ((-3 : ℚ) : ℝ) + 2 * Real.pi
    ∧ ((-9502122 / 2 ^ 25 : ℚ) : ℝ) ≠ ((3 : ℚ) : ℝ) - ((-3 : ℚ) : ℝ) - 2 * Real.pi
    ∧ (-9502122 / 2 ^ 25 : ℚ) ≠ 3 - (-3) - 2 * M_PI := by
  have h1 := Real.pi_gt_d20
  have h2 := Real.pi_lt_d20
  norm_num at h1 h2
  have hsub : Fp.sub ieeeArith.toFloat (Fp.cvt ieeeArith.toFloat (Fp.fin 3))
      (Fp.cvt ieeeArith.toFloat (Fp.fin (-3))) = Fp.fin 6 := by
    simp only [ieeeArith, Fp.cvt, roundTo_binary32_three, roundTo_binary32_neg_three, Fp.sub]
    rw [show (3 : ℚ) - -3 = 6 by norm_num]
    exact roundTo_binary32_six
  have hw : Fp.cvt ieeeArith.toFloat
      (Fp.sub ieeeArith.toDouble (Fp.fin 6) (Fp.fin (2 * M_PI)))
        = Fp.fin (-9502122 / 2 ^ 25) := by
    simp only [ieeeArith, Fp.sub, roundTo_binary64_six_wrapped, Fp.cvt]
    exact roundTo_binary32_six_wrapped
  refine ⟨?_, ?_, ?_, ?_, ?_, ?_, ?_⟩
  · push_cast; constructor <;> linarith
  · push_cast; constructor <;> linarith
  · exact wrapDphi_down ieeeArith _ _ 6 _ hsub (by norm_num [M_PI]) hw (by norm_num [M_PI])
  · push_cast; norm_num
  · push_cast
    intro h
    norm_num at h
    linarith
  · push_cast
    intro h
    norm_num at h
    linarith
  · norm_num [M_PI]

/-! ## Theorems: the tensor conversion -/

theorem set3_data (t : Tensor) (i j : Nat) (v : Fp) (b1 i1 j1 c1 : Nat) :
    (((t.set 0 i j 0 v).set 0 i j 1 v).set 0 i j 2 v).data b1 i1 j1 c1
      = if b1 = 0 ∧ i1 = i ∧ j1 = j ∧ c1 < 3 then v else t.data b1 i1 j1 c1 := by
  simp only [Tensor.set]
  by_cases h : b1 = 0 ∧ i1 = i ∧ j1 = j
  · obtain ⟨hb, hi, hj⟩ := h
    subst hb hi hj
    by_cases h0 : c1 = 0
    · subst h0; simp
    · by_cases h1 : c1 = 1
      · subst h1; simp
      · by_cases h2 : c1 = 2
        · subst h2; simp
        · have h3 : ¬ c1 < 3 := by omega
          simp [h0, h1, h2, h3]
  · have hn : ∀ c : Nat, ¬ (b1 = 0 ∧ i1 = i ∧ j1 = j ∧ c1 = c) := by
      intro c hc; exact h ⟨hc.1, hc.2.1, hc.2.2.1⟩
    have hn3 : ¬ (b1 = 0 ∧ i1 = i ∧ j1 = j ∧ c1 < 3) := by
      intro hc; exact h ⟨hc.1, hc.2.1, hc.2.2.1⟩
    rw [if_neg (hn 2), if_neg (hn 1), if_neg (hn 0), if_neg hn3]

theorem rowFold_meta (image2D : Image) (itf : Fin npix) (L : List (Fin npix)) (t : Tensor) :
    (L.foldl
      (fun (input_map : Tensor) (jtf : Fin npix) =>
        let input_map := input_map.set 0 itf jtf 0 (image2D itf jtf)
        let input_map := input_map.set 0 itf jtf 1 (image2D itf jtf)
        let input_map := input_map.set 0 itf jtf 2 (image2D itf jtf)
        input_map) t).shape = t.shape
    ∧ (L.foldl
      (fun (input_map : Tensor) (jtf : Fin npix) =>
        let input_map := input_map.set 0 itf jtf 0 (image2D itf jtf)
        let input_map := input_map.set 0 itf jtf 1 (image2D itf jtf)
        let input_map := input_map.set 0 itf jtf 2 (image2D itf jtf)
        input_map) t).dtype = t.dtype := by
  induction L generalizing t with
  | nil => exact ⟨rfl, rfl⟩
  | cons x L ih =>
    rw [List.foldl_cons]
    obtain ⟨h1, h2⟩ := ih (((t.set 0 itf x 0 (image2D itf x)).set 0 itf x 1
      (image2D itf x)).set 0 itf x 2 (image2D itf x))
    exact ⟨h1, h2⟩

theorem rowFold_other (image2D : Image) (itf : Fin npix) (L : List (Fin npix)) (t : Tensor)
    (b1 i1 j1 c1 : Nat)
    (h : ¬ (b1 = 0 ∧ i1 = itf.val ∧ c1 < 3 ∧ ∃ x ∈ L, j1 = x.val)) :
    (L.foldl
      (fun (input_map : Tensor) (jtf : Fin npix) =>
        let input_map := input_map.set 0 itf jtf 0 (image2D itf jtf)
        let input_map := input_map.set 0 itf jtf 1 (image2D itf jtf)
        let input_map := input_map.set 0 itf jtf 2 (image2D itf jtf)
        input_map) t).data b1 i1 j1 c1 = t.data b1 i1 j1 c1 := by
  induction L generalizing t with
  | nil => rfl
  | cons x L ih =>
    rw [List.foldl_cons]
    have h1 : ¬ (b1 = 0 ∧ i1 = itf.val ∧ c1 < 3 ∧ ∃ y ∈ L, j1 = y.val) := by
      rintro ⟨hb, hi, hc, y, hy, hj⟩
      exact h ⟨hb, hi, hc, y, List.mem_cons_of_mem _ hy, hj⟩
    rw [ih _ h1, set3_data]
    have h2 : ¬ (b1 = 0 ∧ i1 = itf.val ∧ j1 = x.val ∧ c1 < 3) := by
      rintro ⟨hb, hi, hj, hc⟩
      exact h ⟨hb, hi, hc, x, List.mem_cons_self _ _, hj⟩
    rw [if_neg h2]

theorem rowFold_written (image2D : Image) (itf : Fin npix) (L : List (Fin npix)) (t : Tensor)
    (jtf : Fin npix) (c : Nat) (hj : jtf ∈ L) (hc : c < 3) :
    (L.foldl
      (fun (input_map : Tensor) (jtf : Fin npix) =>
        let input_map := input_map.set 0 itf jtf 0 (image2D itf jtf)
        let input_map := input_map.set 0 itf jtf 1 (image2D itf jtf)
        let input_map := input_map.set 0 itf jtf 2 (image2D itf jtf)
        input_map) t).data 0 itf jtf c = image2D itf jtf := by
  induction L generalizing t with
  | nil => exact absurd hj (List.not_mem_nil _)
  | cons x L ih =>
    rw [List.foldl_cons]
    by_cases hmem : jtf ∈ L
    · exact ih _ hmem
    · have hx : jtf = x := by
        rcases List.mem_cons.mp hj with h | h
        · exact h
        · exact absurd h hmem
      subst hx
      rw [rowFold_other, set3_data]
      · rw [if_pos ⟨rfl, rfl, rfl, hc⟩]
      · rintro ⟨_, _, _, y, hy, hjy⟩
        apply hmem
        have : jtf = y := Fin.ext hjy
        rw [this]; exact hy

theorem fillRow_meta (image2D : Image) (itf : Fin npix) (t : Tensor) :
    (fillRow image2D itf t).shape = t.shape ∧ (fillRow image2D itf t).dtype = t.dtype :=
  rowFold_meta image2D itf (List.finRange npix) t

theorem fillRow_other (image2D : Image) (itf : Fin npix) (t : Tensor) (b1 i1 j1 c1 : Nat)
    (h : ¬ (b1 = 0 ∧ i1 = itf.val)) :
    (fillRow image2D itf t).data b1 i1 j1 c1 = t.data b1 i1 j1 c1 := by
  unfold fillRow
  apply rowFold_other
  rintro ⟨hb, hi, _⟩
  exact h ⟨hb, hi⟩

theorem fillRow_written (image2D : Image) (itf jtf : Fin npix) (t : Tensor) (c : Nat)
    (hc : c < 3) : (fillRow image2D itf t).data 0 itf jtf c = image2D itf jtf := by
  unfold fillRow
  exact rowFold_written image2D itf (List.finRange npix) t jtf c (List.mem_finRange jtf) hc

theorem rowsFold_meta (image2D : Image) (L : List (Fin npix)) (t : Tensor) :
    (L.foldl (fun (t : Tensor) (itf : Fin npix) => fillRow image2D itf t) t).shape = t.shape
    ∧ (L.foldl (fun (t : Tensor) (itf : Fin npix) => fillRow image2D itf t) t).dtype
        = t.dtype := by
  induction L generalizing t with
  | nil => exact ⟨rfl, rfl⟩
  | cons x L ih =>
    rw [List.foldl_cons]
    obtain ⟨h1, h2⟩ := ih (fillRow image2D x t)
    obtain ⟨h3, h4⟩ := fillRow_meta image2D x t
    exact ⟨h1.trans h3, h2.trans h4⟩

theorem rowsFold_other (image2D : Image) (L : List (Fin npix)) (t : Tensor)
    (b1 i1 j1 c1 : Nat) (h : ¬ (b1 = 0 ∧ ∃ x ∈ L, i1 = x.val)) :
    (L.foldl (fun (t : Tensor) (itf : Fin npix) => fillRow image2D itf t) t).data b1 i1 j1 c1
      = t.data b1 i1 j1 c1 := by
  induction L generalizing t with
  | nil => rfl
  | cons x L ih =>
    rw [List.foldl_cons]
    have h1 : ¬ (b1 = 0 ∧ ∃ y ∈ L, i1 = y.val) := by
      rintro ⟨hb, y, hy, hi⟩
      exact h ⟨hb, y, List.mem_cons_of_mem _ hy, hi⟩
    rw [ih _ h1, fillRow_other]
    rintro ⟨hb, hi⟩
    exact h ⟨hb, x, List.mem_cons_self _ _, hi⟩

theorem rowsFold_written (image2D : Image) (L : List (Fin npix)) (t : Tensor)
    (itf jtf : Fin npix) (c : Nat) (hi : itf ∈ L) (hc : c < 3) :
    (L.foldl (fun (t : Tensor) (itf : Fin npix) => fillRow image2D itf t) t).data 0 itf jtf c
      = image2D itf jtf := by
  induction L generalizing t with
  | nil => exact absurd hi (List.not_mem_nil _)
  | cons x L ih =>
    rw [List.foldl_cons]
    by_cases hmem : itf ∈ L
    · exact ih _ hmem
    · have hx : itf = x := by
        rcases List.mem_cons.mp hi with h | h
        · exact h
        · exact absurd h hmem
      subst hx
      rw [rowsFold_other, fillRow_written _ _ _ _ _ hc]
      rintro ⟨_, y, hy, hiy⟩
      apply hmem
      have : itf = y := Fin.ext hiy
      rw [this]; exact hy

theorem fillFold_fst (clock : Nat → ℤ) (image2D : Image) (L : List (Fin npix))
    (t : Tensor) (s : Producer) :
    (L.foldl
      (fun (st : Tensor × Producer) (itf : Fin npix) =>
        let input_map := fillRow image2D itf st.1
        let r := timeSinceEpoch clock st.2
        (input_map, { r.2 with inference_ := { r.2.inference_ with end_acquire := r.1 } }))
      (t, s)).1
      = L.foldl (fun (t : Tensor) (itf : Fin npix) => fillRow image2D itf t) t := by
  induction L generalizing t s with
  | nil => rfl
  | cons x L ih =>
    rw [List.foldl_cons, List.foldl_cons]
    exact ih _ _

theorem fillTensor_tensor (clock : Nat → ℤ) (image2D : Image) (t : Tensor) (s : Producer) :
    (fillTensor clock image2D (t, s)).1.shape = t.shape
    ∧ (fillTensor clock image2D (t, s)).1.dtype = t.dtype
    ∧ ∀ (i j : Fin npix) (c : Nat), c < 3 →
        (fillTensor clock image2D (t, s)).1.data 0 i j c = image2D i j := by
  have e : (fillTensor clock image2D (t, s)).1
      = (List.finRange npix).foldl
          (fun (t : Tensor) (itf : Fin npix) => fillRow image2D itf t) t :=
    fillFold_fst clock image2D (List.finRange npix) t s
  rw [e]
  obtain ⟨h1, h2⟩ := rowsFold_meta image2D (List.finRange npix) t
  refine ⟨h1, h2, ?_⟩
  intro i j c hc
  exact rowsFold_written image2D (List.finRange npix) t i j c (List.mem_finRange i) hc

theorem acquire_eq (clock : Nat → ℤ) (s : Producer) (jets : List Jet) :
    acquire clock s jets
      = (encodeImage ieeeArith jets).map (fun image2D =>
          ((fillTensor clock image2D
              (Tensor.alloc DataType.DT_FLOAT [1, npix, npix, 3], acquireStart clock s)).2,
            (fillTensor clock image2D
              (Tensor.alloc DataType.DT_FLOAT [1, npix, npix, 3], acquireStart clock s)).1)) := by
  unfold acquire
  cases encodeImage ieeeArith jets <;> rfl

theorem acquire_tensor (clock : Nat → ℤ) (s : Producer) (jets : List Jet)
    (image2D : Image) (h : encodeImage ieeeArith jets = some image2D) :
    ∃ (s1 : Producer) (iInput : Tensor),
      acquire clock s jets = some (s1, iInput)
      ∧ iInput.dtype = DataType.DT_FLOAT
      ∧ iInput.shape = [1, 224, 224, 3]
      ∧ ∀ i j : Fin npix,
          iInput.data 0 i j 0 = image2D i j
          ∧ iInput.data 0 i j 1 = image2D i j
          ∧ iInput.data 0 i j 2 = image2D i j := by
  obtain ⟨h1, h2, h3⟩ :=
    fillTensor_tensor clock image2D (Tensor.alloc DataType.DT_FLOAT [1, npix, npix, 3])
      (acquireStart clock s)
  refine ⟨(fillTensor clock image2D
      (Tensor.alloc DataType.DT_FLOAT [1, npix, npix, 3], acquireStart clock s)).2,
    (fillTensor clock image2D
      (Tensor.alloc DataType.DT_FLOAT [1, npix, npix, 3], acquireStart clock s)).1,
    ?_, h2, h1, ?_⟩
  · rw [acquire_eq, h]; rfl
  · intro i j
    exact ⟨h3 i j 0 (by norm_num), h3 i j 1 (by norm_num), h3 i j 2 (by norm_num)⟩

theorem fillFold_snd_fields (clock : Nat → ℤ) (image2D : Image) (L : List (Fin npix))
    (t : Tensor) (s : Producer) :
    (L.foldl
      (fun (st : Tensor × Producer) (itf : Fin npix) =>
        let input_map := fillRow image2D itf st.1
        let r := timeSinceEpoch clock st.2
        (input_map, { r.2 with inference_ := { r.2.inference_ with end_acquire := r.1 } }))
      (t, s)).2
      = { s with
          inference_ :=
            { s.inference_ with
              end_acquire :=
                (L.foldl
                  (fun (st : Tensor × Producer) (itf : Fin npix) =>
                    let input_map := fillRow image2D itf st.1
                    let r := timeSinceEpoch clock st.2
                    (input_map,
                      { r.2 with inference_ := { r.2.inference_ with end_acquire := r.1 } }))
                  (t, s)).2.inference_.end_acquire }
          clockReads := s.clockReads + L.length } := by
  induction L generalizing t s with
  | nil => rfl
  | cons x L ih =>
    rw [List.foldl_cons]
    rw [ih]
    simp only [timeSinceEpoch, List.length_cons]
    congr 1
    omega

theorem fillFold_snd_end (clock : Nat → ℤ) (image2D : Image) (L : List (Fin npix))
    (x : Fin npix) (t : Tensor) (s : Producer) :
    ((x :: L).foldl
      (fun (st : Tensor × Producer) (itf : Fin npix) =>
        let input_map := fillRow image2D itf st.1
        let r := timeSinceEpoch clock st.2
        (input_map, { r.2 with inference_ := { r.2.inference_ with end_acquire := r.1 } }))
      (t, s)).2.inference_.end_acquire = clock (s.clockReads + L.length) := by
  induction L generalizing x t s with
  | nil => rfl
  | cons y L ih =>
    rw [List.foldl_cons]
    rw [ih]
    simp only [timeSinceEpoch, List.length_cons]
    congr 1
    omega

theorem finRange_npix_cons :
    ∃ (x : Fin npix) (L : List (Fin npix)), List.finRange npix = x :: L ∧ L.length = 223 := by
  have hlen : (List.finRange npix).length = npix := List.length_finRange npix
  cases hL : List.finRange npix with
  | nil =>
    rw [hL] at hlen
    exact absurd hlen (by simp [npix])
  | cons x L =>
    refine ⟨x, L, rfl, ?_⟩
    rw [hL, List.length_cons] at hlen
    simp only [npix] at hlen
    omega

theorem fillTensor_state (clock : Nat → ℤ) (image2D : Image) (t : Tensor) (s : Producer) :
    (fillTensor clock image2D (t, s)).2
      = { s with
          inference_ := { s.inference_ with end_acquire := clock (s.clockReads + 223) }
          clockReads := s.clockReads + 224 } := by
  obtain ⟨x, L, hL, hlen⟩ := finRange_npix_cons
  unfold fillTensor
  rw [hL, fillFold_snd_fields, fillFold_snd_end, hlen, List.length_cons, hlen]

theorem acquire_state (clock : Nat → ℤ) (s s1 : Producer) (jets : List Jet) (t : Tensor)
    (h : acquire clock s jets = some (s1, t)) :
    s1 = { s with
           inference_ :=
             { Inference.init with
               start_acquire := clock s.clockReads
               end_acquire := clock (s.clockReads + 224) }
           clockReads := s.clockReads + 225 } := by
  rw [acquire_eq] at h
  cases he : encodeImage ieeeArith jets with
  | none => rw [he] at h; exact Option.noConfusion h
  | some image2D =>
    rw [he] at h
    simp only [Option.map_some', Option.some.injEq, Prod.mk.injEq] at h
    rw [← h.1, fillTensor_state]
    simp only [acquireStart, timeSinceEpoch]

theorem topLoop_keeps_times (topN_ : Nat) (score_map : ScoreMap) (counter : Nat)
    (inference_ : Inference) :
    (topLoop topN_ score_map counter inference_).2.start_acquire = inference_.start_acquire
    ∧ (topLoop topN_ score_map counter inference_).2.end_acquire = inference_.end_acquire
    ∧ (topLoop topN_ score_map counter inference_).2.start_produce = inference_.start_produce
    ∧ (topLoop topN_ score_map counter inference_).2.end_produce
        = inference_.end_produce := by
  induction score_map generalizing counter inference_ with
  | nil => exact ⟨rfl, rfl, rfl, rfl⟩
  | cons item rest ih =>
    rw [topLoop]
    simp only []
    have hk : ∀ i : Inference,
        (if counter = 0 then { i with type := item.2, probability := item.1 } else i).start_acquire
            = i.start_acquire
        ∧ (if counter = 0 then { i with type := item.2, probability := item.1 }
            else i).end_acquire = i.end_acquire
        ∧ (if counter = 0 then { i with type := item.2, probability := item.1 }
            else i).start_produce = i.start_produce
        ∧ (if counter = 0 then { i with type := item.2, probability := item.1 }
            else i).end_produce = i.end_produce := by
      intro i
      by_cases hc : counter = 0
      · simp only [if_pos hc, and_self]
      · simp only [if_neg hc, and_self]
    obtain ⟨k1, k2, k3, k4⟩ := hk inference_
    by_cases hb : toUnsigned (counter + 1) ≥ topN_
    · rw [if_pos hb]
      exact ⟨k1, k2, k3, k4⟩
    · rw [if_neg hb]
      obtain ⟨i1, i2, i3, i4⟩ := ih (toUnsigned (counter + 1))
        (if counter = 0 then { inference_ with type := item.2, probability := item.1 }
          else inference_)
      exact ⟨i1.trans k1, i2.trans k2, i3.trans k3, i4.trans k4⟩

theorem produce_log (clock : Nat → ℤ) (s : Producer) (iOutput : List ℚ) :
    ∃ record : Inference,
      (produce clock s iOutput).1.outfile = s.outfile ++ [record]
      ∧ (produce clock s iOutput).1.inference_ = record
      ∧ record.start_acquire = s.inference_.start_acquire
      ∧ record.end_acquire = s.inference_.end_acquire
      ∧ record.start_produce = clock s.clockReads
      ∧ record.end_produce = clock (s.clockReads + 1)
      ∧ (produce clock s iOutput).1.clockReads = s.clockReads + 2
      ∧ (produce clock s iOutput).1.topN_ = s.topN_
      ∧ (produce clock s iOutput).1.imageList_ = s.imageList_ := by
  obtain ⟨h1, h2, h3, _⟩ :=
    topLoop_keeps_times s.topN_ (fillScoreMap iOutput s.imageList_) 0
      { s.inference_ with start_produce := clock s.clockReads }
  refine ⟨_, rfl, rfl, ?_, ?_, ?_, rfl, rfl, rfl, rfl⟩
  · exact h1
  · exact h2
  · exact h3

theorem acquire_times (clock : Nat → ℤ) (s s1 : Producer) (jets : List Jet) (t : Tensor)
    (h : acquire clock s jets = some (s1, t)) :
    s1.inference_.start_acquire = clock s.clockReads
    ∧ s1.inference_.end_acquire = clock (s.clockReads + 224)
    ∧ s1.outfile = s.outfile
    ∧ s1.clockReads = s.clockReads + 225 := by
  rw [acquire_state clock s s1 jets t h]
  exact ⟨rfl, rfl, rfl, rfl⟩

theorem sequential_log (clock : Nat → ℤ) (s sA : Producer) (jetsA : List Jet) (tA : Tensor)
    (outA : List ℚ) (hA : acquire clock s jetsA = some (sA, tA)) :
    ∃ record : Inference,
      (produce clock sA outA).1.outfile = s.outfile ++ [record]
      ∧ record.start_acquire = clock s.clockReads
      ∧ record.end_acquire = clock (s.clockReads + 224) := by
  obtain ⟨a1, a2, a3, _⟩ := acquire_times clock s sA jetsA tA hA
  obtain ⟨record, p1, _, p3, p4, _⟩ := produce_log clock sA outA
  exact ⟨record, by rw [p1, a3], by rw [p3, a1], by rw [p4, a2]⟩

theorem interleaved_log (clock : Nat → ℤ) (s sA sB : Producer) (jetsA jetsB : List Jet)
    (tA tB : Tensor) (outA outB : List ℚ)
    (hA : acquire clock s jetsA = some (sA, tA))
    (hB : acquire clock sA jetsB = some (sB, tB)) :
    ∃ recordA recordB : Inference,
      (produce clock sB outA).1.outfile = s.outfile ++ [recordA]
      ∧ (produce clock (produce clock sB outA).1 outB).1.outfile
          = s.outfile ++ [recordA, recordB]
      ∧ recordA.start_acquire = clock (s.clockReads + 225)
      ∧ recordA.end_acquire = clock (s.clockReads + 449)
      ∧ recordB.start_acquire = clock (s.clockReads + 225)
      ∧ recordB.end_acquire = clock (s.clockReads + 449) := by
  obtain ⟨_, _, a3, a4⟩ := acquire_times clock s sA jetsA tA hA
  obtain ⟨b1, b2, b3, _⟩ := acquire_times clock sA sB jetsB tB hB
  obtain ⟨recordA, p1, p2, p3, p4, _⟩ := produce_log clock sB outA
  obtain ⟨recordB, q1, _, q3, q4, _⟩ := produce_log clock (produce clock sB outA).1 outB
  have e1 : clock (sA.clockReads) = clock (s.clockReads + 225) := by rw [a4]
  have e2 : clock (sA.clockReads + 224) = clock (s.clockReads + 449) := by rw [a4]
  refine ⟨recordA, recordB, ?_, ?_, ?_, ?_, ?_, ?_⟩
  · rw [p1, b3, a3]
  · rw [q1, p1, b3, a3, List.append_assoc]; rfl
  · rw [p3, b1, e1]
  · rw [p4, b2, e2]
  · rw [q3, p2, p3, b1, e1]
  · rw [q4, p2, p4, b2, e2]

/-- C8, amended: a produce step logs the prepare-start and prepare-end timestamps the producer
holds in `inference_` and leaves them in place, and they are those of the latest acquire step
run on the producer. When produce of an event follows its own acquire directly, the record
carries that event's own timestamps; in the order acquire A, acquire B, produce A, produce B
both records carry the timestamps of B. -/
theorem C8_record_of_latest_acquire (clock : Nat → ℤ) (s sA : Producer) (jetsA : List Jet)
    (tA : Tensor) (outA outB : List ℚ) (hA : acquire clock s jetsA = some (sA, tA)) :
    (∀ (s0 : Producer) (out : List ℚ), ∃ record : Inference,
        (produce clock s0 out).1.outfile = s0.outfile ++ [record]
        ∧ record.start_acquire = s0.inference_.start_acquire
        ∧ record.end_acquire = s0.inference_.end_acquire
        ∧ (produce clock s0 out).1.inference_.start_acquire = s0.inference_.start_acquire
        ∧ (produce clock s0 out).1.inference_.end_acquire = s0.inference_.end_acquire)
    ∧ (sA.inference_.start_acquire = clock s.clockReads
      ∧ sA.inference_.end_acquire = clock (s.clockReads + 224))
    ∧ (∃ record : Inference,
        (produce clock sA outA).1.outfile = s.outfile ++ [record]
        ∧ record.start_acquire = clock s.clockReads
        ∧ record.end_acquire = clock (s.clockReads + 224))
    ∧ (∀ (jetsB : List Jet) (sB : Producer) (tB : Tensor),
        acquire clock sA jetsB = some (sB, tB) →
        (sB.inference_.start_acquire = clock (s.clockReads + 225)
          ∧ sB.inference_.end_acquire = clock (s.clockReads + 449))
        ∧ ∃ recordA recordB : Inference,
            (produce clock sB outA).1.outfile = s.outfile ++ [recordA]
            ∧ (produce clock (produce clock sB outA).1 outB).1.outfile
                = s.outfile ++ [recordA, recordB]
            ∧ recordA.start_acquire = clock (s.clockReads + 225)
            ∧ recordA.end_acquire = clock (s.clockReads + 449)
            ∧ recordB.start_acquire = clock (s.clockReads + 225)
            ∧ recordB.end_acquire = clock (s.clockReads + 449)) := by
  obtain ⟨a1, a2, _, a4⟩ := acquire_times clock s sA jetsA tA hA
  refine ⟨?_, ⟨a1, a2⟩, sequential_log clock s sA jetsA tA outA hA, ?_⟩
  · intro s0 out
    obtain ⟨record, p1, p2, p3, p4, _⟩ := produce_log clock s0 out
    exact ⟨record, p1, p3, p4, by rw [p2, p3], by rw [p2, p4]⟩
  · intro jetsB sB tB hB
    obtain ⟨b1, b2, _, _⟩ := acquire_times clock sA sB jetsB tB hB
    refine ⟨⟨by rw [b1, a4], by rw [b2, a4]⟩, ?_⟩
    exact interleaved_log clock s sA sB jetsA jetsB tA tB outA outB hA hB

theorem acquire_scenario_channels :
    ∃ (s1 : Producer) (iInput : Tensor),
      acquire tickClock freshProducer [scenarioJet] = some (s1, iInput)
      ∧ iInput.shape = [1, 224, 224, 3]
      ∧ (iInput.data 0 123 123 0 = Fp.fin (13421773 / 2 ^ 27)
          ∧ iInput.data 0 123 123 1 = Fp.fin (13421773 / 2 ^ 27)
          ∧ iInput.data 0 123 123 2 = Fp.fin (13421773 / 2 ^ 27))
      ∧ (iInput.data 0 0 0 0 = Fp.fin 0 ∧ iInput.data 0 0 0 1 = Fp.fin 0
          ∧ iInput.data 0 0 0 2 = Fp.fin 0) := by
  obtain ⟨s1, iInput, h1, _, h3, h4⟩ :=
    acquire_tensor tickClock freshProducer [scenarioJet] scenarioImage encodeImage_scenario
  refine ⟨s1, iInput, h1, h3, ?_, ?_⟩
  · have hv : scenarioImage ⟨123, by decide⟩ ⟨123, by decide⟩ = Fp.fin (13421773 / 2 ^ 27) := by
      simp [scenarioImage]
    have h := h4 ⟨123, by decide⟩ ⟨123, by decide⟩
    rw [hv] at h
    exact h
  · have hv : scenarioImage ⟨0, by decide⟩ ⟨0, by decide⟩ = Fp.fin 0 := by
      simp [scenarioImage]
    have h := h4 ⟨0, by decide⟩ ⟨0, by decide⟩
    rw [hv] at h
    exact h

theorem acquire_scenario (clock : Nat → ℤ) (s : Producer) :
    ∃ (s1 : Producer) (t : Tensor), acquire clock s [scenarioJet] = some (s1, t) := by
  rw [acquire_eq, encodeImage_scenario]
  exact ⟨_, _, rfl⟩

theorem acquire_no_jet (clock : Nat → ℤ) (s : Producer) :
    ∃ (s1 : Producer) (t : Tensor), acquire clock s [] = some (s1, t) := by
  rw [acquire_eq]
  exact ⟨_, _, rfl⟩

/-- C8 on a concrete run: with the tick clock and a fresh producer, acquire of the scenario
event returns; produce right after it logs the timestamps 0 and 224 of that acquire, and a
second acquire before it makes both produce steps log 225 and 449. -/
theorem C8_record_of_latest_acquire_witness :
    ∃ (sA : Producer) (tA : Tensor),
      acquire tickClock freshProducer [scenarioJet] = some (sA, tA)
      ∧ (sA.inference_.start_acquire = 0 ∧ sA.inference_.end_acquire = 224)
      ∧ (∃ record : Inference,
          (produce tickClock sA [7 / 10, 2 / 10, 1 / 10]).1.outfile = [record]
          ∧ record.start_acquire = 0 ∧ record.end_acquire = 224)
      ∧ ∃ (sB : Producer) (tB : Tensor) (recordA recordB : Inference),
          acquire tickClock sA [] = some (sB, tB)
          ∧ (produce tickClock (produce tickClock sB [7 / 10, 2 / 10, 1 / 10]).1
                [1 / 10, 2 / 10, 7 / 10]).1.outfile = [recordA, recordB]
          ∧ recordA.start_acquire = 225 ∧ recordA.end_acquire = 449
          ∧ recordB.start_acquire = 225 ∧ recordB.end_acquire = 449 := by
  obtain ⟨sA, tA, hA⟩ := acquire_scenario tickClock freshProducer
  obtain ⟨sB, tB, hB⟩ := acquire_no_jet tickClock sA
  obtain ⟨_, ⟨a1, a2⟩, ⟨record, r1, r2, r3⟩, hinter⟩ :=
    C8_record_of_latest_acquire tickClock freshProducer sA [scenarioJet] tA
      [7 / 10, 2 / 10, 1 / 10] [1 / 10, 2 / 10, 7 / 10] hA
  obtain ⟨_, recordA, recordB, _, i2, i3, i4, i5, i6⟩ := hinter [] sB tB hB
  refine ⟨sA, tA, hA, ⟨a1, a2⟩, ⟨record, r1, r2, r3⟩, sB, tB, recordA, recordB, hB, i2,
    i3, i4, i5, i6⟩

/-- C8 as stated fails: with the tick clock, after acquire of event A (timestamps 0 and 224)
and acquire of event B, the record logged by produce of A carries 225 and 449, the
timestamps of B, not those of A. -/
theorem C8_interleaved_events_share_record :
    ∃ (sA sB : Producer) (tA tB : Tensor) (recordA : Inference),
      acquire tickClock freshProducer [scenarioJet] = some (sA, tA)
      ∧ acquire tickClock sA [] = some (sB, tB)
      ∧ (produce tickClock sB [7 / 10, 2 / 10, 1 / 10]).1.outfile = [recordA]
      ∧ sA.inference_.start_acquire = 0 ∧ sA.inference_.end_acquire = 224
      ∧ recordA.start_acquire = 225 ∧ recordA.end_acquire = 449
      ∧ recordA.start_acquire ≠ sA.inference_.start_acquire
      ∧ recordA.end_acquire ≠ sA.inference_.end_acquire := by
  obtain ⟨sA, tA, hA⟩ := acquire_scenario tickClock freshProducer
  obtain ⟨sB, tB, hB⟩ := acquire_no_jet tickClock sA
  obtain ⟨a1, a2, _, _⟩ := acquire_times tickClock freshProducer sA [scenarioJet] tA hA
  obtain ⟨recordA, recordB, i1, _, i3, i4, _, _⟩ :=
    interleaved_log tickClock freshProducer sA sB [scenarioJet] [] tA tB
      [7 / 10, 2 / 10, 1 / 10] [1 / 10, 2 / 10, 7 / 10] hA hB
  have a1v : sA.inference_.start_acquire = 0 := a1
  have a2v : sA.inference_.end_acquire = 224 := a2
  have i3v : recordA.start_acquire = 225 := i3
  have i4v : recordA.end_acquire = 449 := i4
  refine ⟨sA, sB, tA, tB, recordA, hA, hB, i1, a1v, a2v, i3v, i4v, ?_, ?_⟩
  · rw [i3v, a1v]; norm_num
  · rw [i4v, a2v]; norm_num

/-! ## Theorems: the score map -/

theorem emplace_mem (m : ScoreMap) (k : ℚ) (v : String) (p : ℚ × String)
    (h : p ∈ emplace m k v) : p ∈ m ∨ p = (k, v) := by
  induction m with
  | nil =>
    rw [emplace] at h
    right; exact List.mem_singleton.mp h
  | cons hd rest ih =>
    obtain ⟨k1, v1⟩ := hd
    rw [emplace] at h
    by_cases h1 : k > k1
    · rw [if_pos h1] at h
      rcases List.mem_cons.mp h with h | h
      · right; exact h
      · left; exact h
    · rw [if_neg h1] at h
      by_cases h2 : k1 > k
      · rw [if_pos h2] at h
        rcases List.mem_cons.mp h with h | h
        · left; rw [h]; exact List.mem_cons_self _ _
        · rcases ih h with h | h
          · left; exact List.mem_cons_of_mem _ h
          · right; exact h
      · rw [if_neg h2] at h
        left; exact h

theorem emplace_sorted (m : ScoreMap) (k : ℚ) (v : String) (h : m.Sorted largerKey) :
    (emplace m k v).Sorted largerKey := by
  induction m with
  | nil =>
    rw [emplace]
    exact List.sorted_singleton _
  | cons hd rest ih =>
    obtain ⟨k1, v1⟩ := hd
    obtain ⟨hhd, hrest⟩ := List.sorted_cons.mp h
    rw [emplace]
    by_cases h1 : k > k1
    · rw [if_pos h1]
      refine List.sorted_cons.mpr ⟨?_, h⟩
      intro b hb
      rcases List.mem_cons.mp hb with hb | hb
      · rw [hb]; exact h1
      · exact lt_trans (hhd b hb) h1
    · rw [if_neg h1]
      by_cases h2 : k1 > k
      · rw [if_pos h2]
        refine List.sorted_cons.mpr ⟨?_, ih hrest⟩
        intro b hb
        rcases emplace_mem rest k v b hb with hb | hb
        · exact hhd b hb
        · rw [hb]; exact h2
      · rw [if_neg h2]
        exact h

theorem emplace_keys (m : ScoreMap) (k : ℚ) (v : String) (k2 : ℚ) :
    k2 ∈ (emplace m k v).map Prod.fst ↔ k2 = k ∨ k2 ∈ m.map Prod.fst := by
  induction m with
  | nil =>
    rw [emplace]
    simp
  | cons hd rest ih =>
    obtain ⟨k1, v1⟩ := hd
    rw [emplace]
    by_cases h1 : k > k1
    · rw [if_pos h1]
      simp
    · rw [if_neg h1]
      by_cases h2 : k1 > k
      · rw [if_pos h2]
        simp only [List.map_cons, List.mem_cons, ih]
        tauto
      · rw [if_neg h2]
        have hk : k = k1 := le_antisymm (not_lt.mp h1) (not_lt.mp h2)
        simp only [List.map_cons, List.mem_cons, hk]
        tauto

theorem emplace_of_key_present (m : ScoreMap) (k : ℚ) (v : String)
    (h : m.Sorted largerKey) (hk : k ∈ m.map Prod.fst) : emplace m k v = m := by
  induction m with
  | nil => simp at hk
  | cons hd rest ih =>
    obtain ⟨k1, v1⟩ := hd
    obtain ⟨hhd, hrest⟩ := List.sorted_cons.mp h
    have hle : k ≤ k1 := by
      simp only [List.map_cons, List.mem_cons] at hk
      rcases hk with hk | hk
      · exact le_of_eq hk
      · obtain ⟨b, hb, hbk⟩ := List.mem_map.mp hk
        have := hhd b hb
        rw [← hbk]
        exact le_of_lt this
    rw [emplace, if_neg (not_lt.mpr hle)]
    by_cases h2 : k1 > k
    · rw [if_pos h2]
      have hk2 : k ∈ rest.map Prod.fst := by
        simp only [List.map_cons, List.mem_cons] at hk
        rcases hk with hk | hk
        · exact absurd hk (ne_of_lt h2)
        · exact hk
      rw [ih hrest hk2]
    · rw [if_neg h2]

theorem emplace_perm (m : ScoreMap) (k : ℚ) (v : String) (hk : k ∉ m.map Prod.fst) :
    (emplace m k v).Perm ((k, v) :: m) := by
  induction m with
  | nil => rw [emplace]
  | cons hd rest ih =>
    obtain ⟨k1, v1⟩ := hd
    have hne : k ≠ k1 := by
      intro h; apply hk; rw [h]; simp
    have hk2 : k ∉ rest.map Prod.fst := by
      intro h; apply hk; simp only [List.map_cons, List.mem_cons]; right; exact h
    rw [emplace]
    by_cases h1 : k > k1
    · rw [if_pos h1]
    · rw [if_neg h1]
      have h2 : k1 > k := lt_of_le_of_ne (not_lt.mp h1) hne
      rw [if_pos h2]
      exact ((ih hk2).cons (k1, v1)).trans (List.Perm.swap _ _ _)

theorem emplace_mem_iff (m : ScoreMap) (k : ℚ) (v : String) (h : m.Sorted largerKey)
    (p : ℚ × String) :
    p ∈ emplace m k v ↔ p ∈ m ∨ (p = (k, v) ∧ k ∉ m.map Prod.fst) := by
  by_cases hk : k ∈ m.map Prod.fst
  · rw [emplace_of_key_present m k v h hk]
    tauto
  · rw [(emplace_perm m k v hk).mem_iff, List.mem_cons]
    tauto

theorem emplace_length_le (m : ScoreMap) (k : ℚ) (v : String) :
    (emplace m k v).length ≤ m.length + 1 := by
  induction m with
  | nil => rw [emplace]; simp
  | cons hd rest ih =>
    obtain ⟨k1, v1⟩ := hd
    rw [emplace]
    by_cases h1 : k > k1
    · rw [if_pos h1]; simp
    · rw [if_neg h1]
      by_cases h2 : k1 > k
      · rw [if_pos h2]
        simp only [List.length_cons]
        omega
      · rw [if_neg h2]; simp

theorem fillLoop_succ (score_list : List ℚ) (imageList_ : List String) (n : Nat) :
    fillLoop score_list imageList_ (n + 1)
      = emplace (fillLoop score_list imageList_ n) (score_list.getD n 0)
          (imageList_.getD n "") := by
  unfold fillLoop
  rw [List.range_succ, List.foldl_append]
  rfl

theorem fillLoop_sorted (score_list : List ℚ) (imageList_ : List String) (n : Nat) :
    (fillLoop score_list imageList_ n).Sorted largerKey := by
  induction n with
  | zero => exact List.sorted_nil
  | succ n ih =>
    rw [fillLoop_succ]
    exact emplace_sorted _ _ _ ih

theorem fillLoop_keys (score_list : List ℚ) (imageList_ : List String) (n : Nat) (k : ℚ) :
    k ∈ (fillLoop score_list imageList_ n).map Prod.fst
      ↔ ∃ i, i < n ∧ score_list.getD i 0 = k := by
  induction n with
  | zero =>
    constructor
    · intro h; simp [fillLoop] at h
    · rintro ⟨i, hi, _⟩; omega
  | succ n ih =>
    rw [fillLoop_succ, emplace_keys, ih]
    constructor
    · rintro (h | ⟨i, hi, h⟩)
      · exact ⟨n, by omega, h.symm⟩
      · exact ⟨i, by omega, h⟩
    · rintro ⟨i, hi, h⟩
      by_cases hin : i = n
      · left; rw [← h, hin]
      · right; exact ⟨i, by omega, h⟩

theorem fillLoop_mem (score_list : List ℚ) (imageList_ : List String) (n : Nat)
    (p : ℚ × String) :
    p ∈ fillLoop score_list imageList_ n
      ↔ ∃ i, i < n ∧ score_list.getD i 0 = p.1 ∧ imageList_.getD i "" = p.2
          ∧ ∀ j, j < i → score_list.getD j 0 ≠ p.1 := by
  induction n with
  | zero =>
    constructor
    · intro h; simp [fillLoop] at h
    · rintro ⟨i, hi, _⟩; omega
  | succ n ih =>
    rw [fillLoop_succ, emplace_mem_iff _ _ _ (fillLoop_sorted score_list imageList_ n), ih,
      fillLoop_keys]
    constructor
    · rintro (⟨i, hi, h⟩ | ⟨hp, hk⟩)
      · exact ⟨i, by omega, h⟩
      · refine ⟨n, by omega, by rw [hp], by rw [hp], ?_⟩
        intro j hj hjk
        apply hk
        exact ⟨j, hj, by rw [hjk, hp]⟩
    · rintro ⟨i, hi, h1, h2, h3⟩
      by_cases hin : i = n
      · right
        subst hin
        refine ⟨Prod.ext h1.symm h2.symm, ?_⟩
        rintro ⟨j, hj, hjk⟩
        exact h3 j hj (hjk.trans h1)
      · left; exact ⟨i, by omega, h1, h2, h3⟩

theorem fillLoop_length_le (score_list : List ℚ) (imageList_ : List String) (n : Nat) :
    (fillLoop score_list imageList_ n).length ≤ n := by
  induction n with
  | zero => simp [fillLoop]
  | succ n ih =>
    rw [fillLoop_succ]
    have := emplace_length_le (fillLoop score_list imageList_ n) (score_list.getD n 0)
      (imageList_.getD n "")
    omega

theorem fillLoop_perm (score_list : List ℚ) (imageList_ : List String) (n : Nat)
    (hinj : ∀ i j, i < n → j < n → score_list.getD i 0 = score_list.getD j 0 → i = j) :
    (fillLoop score_list imageList_ n).Perm
      ((List.range n).map (fun i => (score_list.getD i 0, imageList_.getD i ""))) := by
  induction n with
  | zero => simp [fillLoop]
  | succ n ih =>
    have hk : score_list.getD n 0 ∉ (fillLoop score_list imageList_ n).map Prod.fst := by
      rw [fillLoop_keys]
      rintro ⟨i, hi, h⟩
      have := hinj i n (by omega) (by omega) h
      omega
    have ih2 := ih (fun i j hi hj h => hinj i j (by omega) (by omega) h)
    rw [fillLoop_succ, List.range_succ, List.map_append, List.map_singleton]
    refine (emplace_perm _ _ _ hk).trans ?_
    refine List.Perm.trans ?_ (List.perm_append_comm)
    exact List.Perm.cons _ ih2

theorem fillLoop_keys_nodup (score_list : List ℚ) (imageList_ : List String) (n : Nat) :
    ((fillLoop score_list imageList_ n).map Prod.fst).Nodup := by
  have h := fillLoop_sorted score_list imageList_ n
  rw [List.Nodup, List.pairwise_map]
  exact List.Pairwise.imp (fun hab => ne_of_gt hab) h

theorem fillLoop_length (score_list : List ℚ) (imageList_ : List String) (n : Nat) :
    (fillLoop score_list imageList_ n).length
      = (((List.range n).map (fun i => score_list.getD i 0)).dedup).length := by
  have hperm : ((fillLoop score_list imageList_ n).map Prod.fst).Perm
      (((List.range n).map (fun i => score_list.getD i 0)).dedup) := by
    rw [List.perm_ext_iff_of_nodup (fillLoop_keys_nodup score_list imageList_ n)
      (List.nodup_dedup _)]
    intro k
    rw [fillLoop_keys, List.mem_dedup, List.mem_map]
    constructor
    · rintro ⟨i, hi, h⟩
      exact ⟨i, List.mem_range.mpr hi, h⟩
    · rintro ⟨i, hi, h⟩
      exact ⟨i, List.mem_range.mp hi, h⟩
  rw [← hperm.length_eq, List.length_map]

/-! ## Theorems: the loop over the score map -/

theorem toUnsigned_of_lt (n : Nat) (h : n < 2 ^ 32) : toUnsigned n = n := by
  unfold toUnsigned
  exact Nat.mod_eq_of_lt h

theorem toUnsigned_lt (n : Nat) : toUnsigned n < 2 ^ 32 := by
  unfold toUnsigned
  exact Nat.mod_lt _ (by norm_num)

theorem topLoop_entries (topN_ : Nat) (score_map : ScoreMap) (counter : Nat)
    (inference_ : Inference) (h : counter + score_map.length < 2 ^ 32) :
    (topLoop topN_ score_map counter inference_).1
      = (score_map.take (max (topN_ - counter) 1)).map (fun item => (item.2, item.1)) := by
  induction score_map generalizing counter inference_ with
  | nil => simp [topLoop]
  | cons item rest ih =>
    rw [List.length_cons] at h
    have hc : toUnsigned (counter + 1) = counter + 1 := toUnsigned_of_lt _ (by omega)
    rw [topLoop]
    simp only [hc]
    by_cases hb : counter + 1 ≥ topN_
    · rw [if_pos hb]
      have hm : max (topN_ - counter) 1 = 1 := by omega
      rw [hm]
      simp
    · rw [if_neg hb]
      have hm : max (topN_ - counter) 1 = max (topN_ - (counter + 1)) 1 + 1 := by omega
      rw [hm, List.take_succ_cons, List.map_cons]
      simp only
      rw [ih (counter + 1) _ (by omega)]

theorem topLoop_record_pos (topN_ : Nat) (score_map : ScoreMap) (counter : Nat)
    (inference_ : Inference) (hpos : 0 < counter)
    (h : counter + score_map.length < 2 ^ 32) :
    (topLoop topN_ score_map counter inference_).2 = inference_ := by
  induction score_map generalizing counter inference_ with
  | nil => simp [topLoop]
  | cons item rest ih =>
    rw [List.length_cons] at h
    have hc : toUnsigned (counter + 1) = counter + 1 := toUnsigned_of_lt _ (by omega)
    have h0 : counter ≠ 0 := by omega
    rw [topLoop]
    simp only [hc, if_neg h0]
    by_cases hb : counter + 1 ≥ topN_
    · rw [if_pos hb]
    · rw [if_neg hb]
      simp only
      rw [ih (counter + 1) _ (by omega) (by omega)]

theorem topLoop_record_zero (topN_ : Nat) (item : ℚ × String) (rest : ScoreMap)
    (inference_ : Inference) (h : (item :: rest).length < 2 ^ 32) :
    (topLoop topN_ (item :: rest) 0 inference_).2
      = { inference_ with type := item.2, probability := item.1 } := by
  rw [List.length_cons] at h
  have hc : toUnsigned (0 + 1) = 1 := toUnsigned_of_lt _ (by norm_num)
  rw [topLoop]
  simp only [hc, if_true]
  by_cases hb : 1 ≥ topN_
  · rw [if_pos hb]
  · rw [if_neg hb]
    simp only
    rw [topLoop_record_pos topN_ rest 1 _ (by norm_num) (by omega)]

theorem fillScoreMap_length_lt (score_list : List ℚ) (imageList_ : List String) :
    (fillScoreMap score_list imageList_).length < 2 ^ 32 := by
  unfold fillScoreMap
  have h1 := fillLoop_length_le score_list imageList_
    (min (toUnsigned score_list.length) (toUnsigned imageList_.length))
  have h2 := toUnsigned_lt score_list.length
  simp only at h1 ⊢
  omega

theorem fillScoreMap_eq (score_list : List ℚ) (imageList_ : List String)
    (h1 : score_list.length < 2 ^ 32) (h2 : imageList_.length < 2 ^ 32) :
    fillScoreMap score_list imageList_
      = fillLoop score_list imageList_ (min score_list.length imageList_.length) := by
  unfold fillScoreMap
  simp only [toUnsigned_of_lt _ h1, toUnsigned_of_lt _ h2]

theorem findTopN_entries (s : Producer) (scores : List ℚ) :
    (findTopN s scores).2.entries
      = ((fillScoreMap scores s.imageList_).take (max s.topN_ 1)).map
          (fun item => (item.2, item.1)) := by
  unfold findTopN
  simp only
  rw [topLoop_entries _ _ _ _ (by
    have := fillScoreMap_length_lt scores s.imageList_
    omega)]
  simp

theorem range_map_getD (scores : List ℚ) (n : Nat) (h : n ≤ scores.length) :
    (List.range n).map (fun i => scores.getD i 0) = scores.take n := by
  apply List.ext_getElem
  · simp [h]
  · intro i h1 h2
    simp only [List.length_map, List.length_range] at h1
    have hi : i < scores.length := by omega
    simp [List.getElem?_eq_getElem hi]

/-! ## Theorems: the ranking -/

theorem getD_injective_of_nodup (scores : List ℚ) (n : Nat) (hn : n ≤ scores.length)
    (hs : scores.Nodup) :
    ∀ i j, i < n → j < n → scores.getD i 0 = scores.getD j 0 → i = j := by
  intro i j hi hj h
  have hi2 : i < scores.length := by omega
  have hj2 : j < scores.length := by omega
  rw [List.getD_eq_getElem _ _ hi2, List.getD_eq_getElem _ _ hj2] at h
  exact (hs.getElem_inj_iff).mp h

theorem paired_eq_zipWith (scores : List ℚ) (labels : List String) :
    ((List.range (min scores.length labels.length)).map
        (fun i => (scores.getD i 0, labels.getD i ""))).map (fun item => (item.2, item.1))
      = List.zipWith (fun score label => (label, score)) scores labels := by
  apply List.ext_getElem
  · simp
  · intro i h1 h2
    simp only [List.length_map, List.length_range] at h1
    have hi : i < scores.length := by omega
    have hj : i < labels.length := by omega
    simp [List.getElem?_eq_getElem hi, List.getElem?_eq_getElem hj]

theorem ranked_eq_sorted (scores : List ℚ) (labels : List String)
    (hs : scores.Nodup) :
    (fillLoop scores labels (min scores.length labels.length)).map
        (fun item => (item.2, item.1))
      = (List.zipWith (fun score label => (label, score)) scores labels).insertionSort
          (fun a b => a.2 ≥ b.2) := by
  have hperm := fillLoop_perm scores labels (min scores.length labels.length)
    (getD_injective_of_nodup scores _ (Nat.min_le_left _ _) hs)
  have hperm2 := hperm.map (fun item : ℚ × String => (item.2, item.1))
  rw [paired_eq_zipWith] at hperm2
  have hsortM : ((fillLoop scores labels (min scores.length labels.length)).map
      (fun item => (item.2, item.1))).Sorted (fun a b : String × ℚ => a.2 > b.2) := by
    rw [List.Sorted, List.pairwise_map]
    exact fillLoop_sorted scores labels _
  haveI : IsTotal (String × ℚ) (fun a b => a.2 ≥ b.2) := ⟨fun a b => le_total b.2 a.2⟩
  haveI : IsTrans (String × ℚ) (fun a b => a.2 ≥ b.2) :=
    ⟨fun a b c hab hbc => le_trans hbc hab⟩
  haveI : IsAntisymm (String × ℚ) (fun a b => a.2 > b.2) :=
    ⟨fun a b hab hba => absurd hab (not_lt_of_gt hba)⟩
  have hpermS := List.perm_insertionSort (fun a b : String × ℚ => a.2 ≥ b.2)
    (List.zipWith (fun score label => (label, score)) scores labels)
  have hsortS := List.sorted_insertionSort (fun a b : String × ℚ => a.2 ≥ b.2)
    (List.zipWith (fun score label => (label, score)) scores labels)
  have hnodupM : (((fillLoop scores labels (min scores.length labels.length)).map
      (fun item => (item.2, item.1))).map Prod.snd).Nodup := by
    rw [List.map_map]
    exact fillLoop_keys_nodup scores labels _
  have hnodupS : (((List.zipWith (fun score label => (label, score)) scores
      labels).insertionSort (fun a b => a.2 ≥ b.2)).map Prod.snd).Nodup :=
    ((hpermS.trans hperm2.symm).map Prod.snd).nodup_iff.mpr hnodupM
  have hsortS2 : ((List.zipWith (fun score label => (label, score)) scores
      labels).insertionSort (fun a b => a.2 ≥ b.2)).Sorted
        (fun a b : String × ℚ => a.2 > b.2) := by
    rw [List.Nodup, List.pairwise_map] at hnodupS
    exact List.Pairwise.imp₂ (fun a b h1 h2 => lt_of_le_of_ne h1 (Ne.symm h2)) hsortS hnodupS
  exact List.eq_of_perm_of_sorted (hperm2.trans hpermS.symm) hsortM hsortS2

/-- C3: for a score vector with pairwise distinct scores, a label list and topN ≥ 1 (the two
sizes fitting `unsigned`), the entries `findTopN` emits are the reference ranking: the pairs
of `scores[i]` with `labels[i]` for i below min(|scores|, |labels|), sorted by score,
largest first, cut to the first min(topN, pairCount) pairs. -/
theorem C3_findTopN_is_reference_ranking (s : Producer) (scores : List ℚ)
    (hs : scores.Nodup) (h1 : scores.length < 2 ^ 32) (h2 : s.imageList_.length < 2 ^ 32)
    (ht : 1 ≤ s.topN_) :
    (findTopN s scores).2.entries = rankSpec scores s.imageList_ s.topN_ := by
  have hm : max s.topN_ 1 = s.topN_ := by omega
  rw [findTopN_entries, fillScoreMap_eq _ _ h1 h2, hm, List.map_take,
    ranked_eq_sorted scores s.imageList_ hs]
  unfold rankSpec
  simp only
  by_cases hle : s.topN_ ≤ min scores.length s.imageList_.length
  · rw [Nat.min_eq_left hle]
  · have hlen : ((List.zipWith (fun score label => (label, score)) scores
        s.imageList_).insertionSort (fun a b => a.2 ≥ b.2)).length
          = min scores.length s.imageList_.length := by
      rw [List.length_insertionSort, List.length_zipWith]
    rw [Nat.min_eq_right (by omega), List.take_of_length_le (by omega),
      List.take_of_length_le (by omega)]

/-- C3, the scenario of the claim: scores [0.7, 0.2, 0.1], labels ["top", "qcd", "higgs"] and
topN = 2 meet the hypotheses, and `findTopN` emits [("top", 0.7), ("qcd", 0.2)]. -/
theorem C3_findTopN_is_reference_ranking_witness :
    ([7 / 10, 2 / 10, 1 / 10] : List ℚ).Nodup
    ∧ ([7 / 10, 2 / 10, 1 / 10] : List ℚ).length < 2 ^ 32
    ∧ ({ freshProducer with topN_ := 2 } : Producer).imageList_.length < 2 ^ 32
    ∧ 1 ≤ ({ freshProducer with topN_ := 2 } : Producer).topN_
    ∧ (findTopN { freshProducer with topN_ := 2 } [7 / 10, 2 / 10, 1 / 10]).2.entries
        = [("top", 7 / 10), ("qcd", 2 / 10)] := by
  have hn : ([7 / 10, 2 / 10, 1 / 10] : List ℚ).Nodup := by norm_num
  have h1 : ([7 / 10, 2 / 10, 1 / 10] : List ℚ).length < 2 ^ 32 := by norm_num
  have h2 : ({ freshProducer with topN_ := 2 } : Producer).imageList_.length < 2 ^ 32 := by
    norm_num [freshProducer]
  have ht : 1 ≤ ({ freshProducer with topN_ := 2 } : Producer).topN_ := by norm_num
  refine ⟨hn, h1, h2, ht, ?_⟩
  rw [C3_findTopN_is_reference_ranking { freshProducer with topN_ := 2 }
    [7 / 10, 2 / 10, 1 / 10] hn h1 h2 ht]
  norm_num [rankSpec, freshProducer, List.insertionSort, List.orderedInsert]

theorem findTopN_entries_length (s : Producer) (scores : List ℚ)
    (hs : scores.Nodup) (h1 : scores.length < 2 ^ 32) (h2 : s.imageList_.length < 2 ^ 32) :
    (findTopN s scores).2.entries.length
      = min (max s.topN_ 1) (min scores.length s.imageList_.length) := by
  have hperm := fillLoop_perm scores s.imageList_ (min scores.length s.imageList_.length)
    (getD_injective_of_nodup scores _ (Nat.min_le_left _ _) hs)
  have hlen := hperm.length_eq
  rw [List.length_map, List.length_range] at hlen
  rw [findTopN_entries, fillScoreMap_eq _ _ h1 h2, List.length_map, List.length_take, hlen]

/-- C4, amended: for a score vector with no score ties and a label list (the two sizes
fitting `unsigned`) and every unsigned topN, the number of entries `findTopN` emits is
min(max(topN, 1), min(|scores|, |labels|)): it is min(topN, min(|scores|, |labels|)) for
topN ≥ 1, and for topN = 0 one entry is emitted when a pair exists. -/
theorem C4_findTopN_entry_count (s : Producer) (scores : List ℚ)
    (hs : scores.Nodup) (h1 : scores.length < 2 ^ 32) (h2 : s.imageList_.length < 2 ^ 32) :
    (findTopN s scores).2.entries.length
        = min (max s.topN_ 1) (min scores.length s.imageList_.length)
    ∧ (1 ≤ s.topN_ →
        (findTopN s scores).2.entries.length
          = min s.topN_ (min scores.length s.imageList_.length)) := by
  have h := findTopN_entries_length s scores hs h1 h2
  refine ⟨h, ?_⟩
  intro ht
  rw [h]
  have hm : max s.topN_ 1 = s.topN_ := by omega
  rw [hm]

/-- C4 on a concrete input: scores [0.7, 0.2, 0.1] and three labels with topN = 2 meet the
hypotheses and two entries are emitted. -/
theorem C4_findTopN_entry_count_witness :
    ([7 / 10, 2 / 10, 1 / 10] : List ℚ).Nodup
    ∧ ([7 / 10, 2 / 10, 1 / 10] : List ℚ).length < 2 ^ 32
    ∧ ({ freshProducer with topN_ := 2 } : Producer).imageList_.length < 2 ^ 32
    ∧ (findTopN { freshProducer with topN_ := 2 } [7 / 10, 2 / 10, 1 / 10]).2.entries.length
        = 2 := by
  have hn : ([7 / 10, 2 / 10, 1 / 10] : List ℚ).Nodup := by norm_num
  have h1 : ([7 / 10, 2 / 10, 1 / 10] : List ℚ).length < 2 ^ 32 := by norm_num
  have h2 : ({ freshProducer with topN_ := 2 } : Producer).imageList_.length < 2 ^ 32 := by
    norm_num [freshProducer]
  refine ⟨hn, h1, h2, ?_⟩
  rw [(C4_findTopN_entry_count { freshProducer with topN_ := 2 }
    [7 / 10, 2 / 10, 1 / 10] hn h1 h2).1]
  norm_num [freshProducer]

/-- C4 as stated fails at topN = 0: for scores [0.7, 0.2, 0.1] (no ties) and three labels,
`findTopN` emits the one entry ("top", 0.7), while min(topN, min(|scores|, |labels|)) is 0. -/
theorem C4_topN_zero_emits_one :
    ([7 / 10, 2 / 10, 1 / 10] : List ℚ).Nodup
    ∧ (findTopN { freshProducer with topN_ := 0 } [7 / 10, 2 / 10, 1 / 10]).2.entries
        = [("top", 7 / 10)]
    ∧ (findTopN { freshProducer with topN_ := 0 } [7 / 10, 2 / 10, 1 / 10]).2.entries.length
        ≠ min ({ freshProducer with topN_ := 0 } : Producer).topN_
            (min ([7 / 10, 2 / 10, 1 / 10] : List ℚ).length
              ({ freshProducer with topN_ := 0 } : Producer).imageList_.length) := by
  have he : (findTopN { freshProducer with topN_ := 0 } [7 / 10, 2 / 10, 1 / 10]).2.entries
      = [("top", 7 / 10)] := by
    rw [findTopN_entries]
    norm_num [freshProducer, fillScoreMap, fillLoop, toUnsigned, List.range_succ, emplace]
  refine ⟨by norm_num, he, ?_⟩
  rw [he]
  norm_num [freshProducer]

/-- C5, amended: for a non-empty score vector and a non-empty label list (the two sizes
fitting `unsigned`), the first entry `findTopN` emits, which it also stores in
`inference_.type` and `inference_.probability`, has a score equal to the maximum over the
first min(|scores|, |labels|) scores and the label at the lowest index carrying that
maximum. -/
theorem C5_first_entry_is_paired_maximum (s : Producer) (scores : List ℚ)
    (hne1 : scores ≠ []) (hne2 : s.imageList_ ≠ [])
    (h1 : scores.length < 2 ^ 32) (h2 : s.imageList_.length < 2 ^ 32) :
    ∃ i, i < min scores.length s.imageList_.length
      ∧ (∀ j, j < min scores.length s.imageList_.length →
          scores.getD j 0 ≤ scores.getD i 0)
      ∧ (∀ j, j < i → scores.getD j 0 ≠ scores.getD i 0)
      ∧ (findTopN s scores).2.entries.head? = some (s.imageList_.getD i "", scores.getD i 0)
      ∧ (findTopN s scores).1.inference_.type = s.imageList_.getD i ""
      ∧ (findTopN s scores).1.inference_.probability = scores.getD i 0 := by
  have hl1 : 0 < scores.length := List.length_pos.mpr hne1
  have hl2 : 0 < s.imageList_.length := List.length_pos.mpr hne2
  have hn : 0 < min scores.length s.imageList_.length := by omega
  have hM := fillScoreMap_eq scores s.imageList_ h1 h2
  have hlenM := fillScoreMap_length_lt scores s.imageList_
  cases hmap : fillScoreMap scores s.imageList_ with
  | nil =>
    exfalso
    have hk := (fillLoop_keys scores s.imageList_ (min scores.length s.imageList_.length)
      (scores.getD 0 0)).mpr ⟨0, hn, rfl⟩
    rw [← hM, hmap] at hk
    simp at hk
  | cons item rest =>
    have hmem : item ∈ fillLoop scores s.imageList_ (min scores.length s.imageList_.length) := by
      rw [← hM, hmap]; exact List.mem_cons_self _ _
    obtain ⟨i, hi, e1, e2, e3⟩ := (fillLoop_mem _ _ _ item).mp hmem
    have hsorted := fillLoop_sorted scores s.imageList_ (min scores.length s.imageList_.length)
    rw [← hM, hmap] at hsorted
    obtain ⟨hhd, _⟩ := List.sorted_cons.mp hsorted
    refine ⟨i, hi, ?_, ?_, ?_, ?_, ?_⟩
    · intro j hj
      have hk := (fillLoop_keys scores s.imageList_ (min scores.length s.imageList_.length)
        (scores.getD j 0)).mpr ⟨j, hj, rfl⟩
      rw [← hM, hmap, List.map_cons, List.mem_cons] at hk
      rw [e1]
      rcases hk with hk | hk
      · exact le_of_eq hk
      · obtain ⟨b, hb, hbk⟩ := List.mem_map.mp hk
        rw [← hbk]
        exact le_of_lt (hhd b hb)
    · intro j hj
      rw [e1]
      exact e3 j hj
    · rw [findTopN_entries, hmap]
      have hm : max s.topN_ 1 = (max s.topN_ 1 - 1) + 1 := by omega
      rw [hm, List.take_succ_cons, List.map_cons, List.head?_cons, e1, e2]
    · unfold findTopN
      simp only
      rw [hmap, topLoop_record_zero _ _ _ _ (by rw [← hmap]; exact hlenM)]
      exact e2.symm
    · unfold findTopN
      simp only
      rw [hmap, topLoop_record_zero _ _ _ _ (by rw [← hmap]; exact hlenM)]
      exact e1.symm

/-- C5 on a concrete input: scores [0.2, 0.7, 0.1] with the labels "top", "qcd", "higgs" meet
the hypotheses; the first entry and the stored top result are ("qcd", 0.7). -/
theorem C5_first_entry_is_paired_maximum_witness :
    ([2 / 10, 7 / 10, 1 / 10] : List ℚ) ≠ []
    ∧ freshProducer.imageList_ ≠ []
    ∧ ([2 / 10, 7 / 10, 1 / 10] : List ℚ).length < 2 ^ 32
    ∧ freshProducer.imageList_.length < 2 ^ 32
    ∧ (findTopN freshProducer [2 / 10, 7 / 10, 1 / 10]).2.entries.head?
        = some ("qcd", 7 / 10)
    ∧ (findTopN freshProducer [2 / 10, 7 / 10, 1 / 10]).1.inference_.type = "qcd"
    ∧ (findTopN freshProducer [2 / 10, 7 / 10, 1 / 10]).1.inference_.probability
        = 7 / 10 := by
  have hne1 : ([2 / 10, 7 / 10, 1 / 10] : List ℚ) ≠ [] := by simp
  have hne2 : freshProducer.imageList_ ≠ [] := by simp [freshProducer]
  have h1 : ([2 / 10, 7 / 10, 1 / 10] : List ℚ).length < 2 ^ 32 := by norm_num
  have h2 : freshProducer.imageList_.length < 2 ^ 32 := by norm_num [freshProducer]
  obtain ⟨i, hi, hmax, _, hhead, htype, hprob⟩ :=
    C5_first_entry_is_paired_maximum freshProducer [2 / 10, 7 / 10, 1 / 10] hne1 hne2 h1 h2
  have hi3 : i < 3 := by
    simp only [freshProducer, List.length_cons, List.length_nil] at hi
    omega
  have hm := hmax 1 (by norm_num [freshProducer])
  have hi1 : i = 1 := by
    interval_cases i
    · norm_num at hm
    · rfl
    · norm_num at hm
  subst hi1
  refine ⟨hne1, hne2, h1, h2, ?_, ?_, ?_⟩
  · rw [hhead]; simp [freshProducer]
  · rw [htype]; simp [freshProducer]
  · rw [hprob]; simp

/-- C5 as stated fails when the label list is shorter than the score vector: for scores
[0.1, 0.9] (no ties) and the one label "top", the first entry and the stored top result are
("top", 0.1), while the score vector holds the larger score 0.9. -/
theorem C5_maximum_beyond_labels_fails :
    ([1 / 10, 9 / 10] : List ℚ).Nodup
    ∧ (findTopN { freshProducer with imageList_ := ["top"] } [1 / 10, 9 / 10]).2.entries.head?
        = some ("top", 1 / 10)
    ∧ (findTopN { freshProducer with imageList_ := ["top"] }
          [1 / 10, 9 / 10]).1.inference_.probability = 1 / 10
    ∧ (9 / 10 : ℚ) ∈ ([1 / 10, 9 / 10] : List ℚ)
    ∧ (1 / 10 : ℚ) < 9 / 10 := by
  refine ⟨by norm_num, ?_, ?_, by simp, by norm_num⟩
  · rw [findTopN_entries]
    norm_num [freshProducer, fillScoreMap, fillLoop, toUnsigned, List.range_succ, emplace]
  · norm_num [findTopN, freshProducer, fillScoreMap, fillLoop, toUnsigned, List.range_succ,
      emplace, topLoop]

/-- C10: when indices below min(|scores|, |labels|) carry an identical score (the two sizes
fitting `unsigned`), the score map keeps a single entry for that score, with the label of
the lowest such index; its entries number the distinct scores among the paired indices,
their scores are strictly descending, and the entries `findTopN` emits are the leading
entries of that map. -/
theorem C10_ties_collapse_to_lowest_index (s : Producer) (scores : List ℚ)
    (h1 : scores.length < 2 ^ 32) (h2 : s.imageList_.length < 2 ^ 32) :
    (∀ p : ℚ × String, p ∈ fillScoreMap scores s.imageList_ ↔
        ∃ i, i < min scores.length s.imageList_.length
          ∧ scores.getD i 0 = p.1 ∧ s.imageList_.getD i "" = p.2
          ∧ ∀ j, j < i → scores.getD j 0 ≠ p.1)
    ∧ (fillScoreMap scores s.imageList_).length
        = ((scores.take (min scores.length s.imageList_.length)).dedup).length
    ∧ (fillScoreMap scores s.imageList_).Sorted largerKey
    ∧ (findTopN s scores).2.entries
        = ((fillScoreMap scores s.imageList_).take (max s.topN_ 1)).map
            (fun item => (item.2, item.1))
    ∧ ((findTopN s scores).2.entries.map Prod.snd).Sorted (fun a b => a > b) := by
  have hM := fillScoreMap_eq scores s.imageList_ h1 h2
  have hsorted : (fillScoreMap scores s.imageList_).Sorted largerKey := by
    rw [hM]; exact fillLoop_sorted _ _ _
  refine ⟨?_, ?_, hsorted, findTopN_entries s scores, ?_⟩
  · intro p
    rw [hM]
    exact fillLoop_mem _ _ _ p
  · rw [hM, fillLoop_length, range_map_getD _ _ (Nat.min_le_left _ _)]
  · rw [findTopN_entries, List.map_map, List.Sorted, List.pairwise_map]
    exact List.Pairwise.sublist (List.take_sublist _ _) hsorted

/-- C10 on a concrete input: scores [0.5, 0.5, 0.2] with the labels "top", "qcd", "higgs" meet
the hypotheses; the map has the two entries (0.5, "top") and (0.2, "higgs"), as many as the
distinct scores, and `findTopN` emits [("top", 0.5), ("higgs", 0.2)]. -/
theorem C10_ties_collapse_to_lowest_index_witness :
    ([1 / 2, 1 / 2, 1 / 5] : List ℚ).length < 2 ^ 32
    ∧ freshProducer.imageList_.length < 2 ^ 32
    ∧ fillScoreMap [1 / 2, 1 / 2, 1 / 5] freshProducer.imageList_
        = [(1 / 2, "top"), (1 / 5, "higgs")]
    ∧ (fillScoreMap [1 / 2, 1 / 2, 1 / 5] freshProducer.imageList_).length
        = ((([1 / 2, 1 / 2, 1 / 5] : List ℚ).take
            (min ([1 / 2, 1 / 2, 1 / 5] : List ℚ).length
              freshProducer.imageList_.length)).dedup).length
    ∧ (findTopN freshProducer [1 / 2, 1 / 2, 1 / 5]).2.entries
        = [("top", 1 / 2), ("higgs", 1 / 5)] := by
  have h1 : ([1 / 2, 1 / 2, 1 / 5] : List ℚ).length < 2 ^ 32 := by norm_num
  have h2 : freshProducer.imageList_.length < 2 ^ 32 := by norm_num [freshProducer]
  have hmap : fillScoreMap [1 / 2, 1 / 2, 1 / 5] freshProducer.imageList_
      = [(1 / 2, "top"), (1 / 5, "higgs")] := by
    norm_num [freshProducer, fillScoreMap, fillLoop, toUnsigned, List.range_succ, emplace]
  obtain ⟨_, hlen, _, hentries, _⟩ :=
    C10_ties_collapse_to_lowest_index freshProducer [1 / 2, 1 / 2, 1 / 5] h1 h2
  refine ⟨h1, h2, hmap, hlen, ?_⟩
  rw [hentries, hmap]
  simp [freshProducer]

end JetImageProducer
